import Mathlib

/-!
# LineProcessor: a shallow embedding of `line_processor.c`

The program is a four-stage text pipeline (input, line separator, plus sign,
output) whose stages hand lines to each other through three bounded ring
buffers.  This file embeds

* the ring buffer (`Buffer`, `initialize_buffer`, `add_to_buffer`,
  `remove_from_buffer`) over a flat model of the storage
  `char lines[MAX_LINES][MAX_LINE_LENGTH]`;
* the bodies of the four stage functions as functions from the sequence of
  items a stage takes from upstream to the sequence it puts downstream.

Conventions.  A C string is modelled by the list of its characters before the
terminating NUL (`Line`); a `char` array holding a string is that list followed
by the terminator, so reading index `i` of it is `getD i NUL` (the loops never
read past the terminator).  The `int` fields of the
buffer are integers; every value that occurs stays far below `INT_MAX`.
The mutex and the two condition variables only serialise the calls and make a
caller wait: a call that would have to wait is modelled by the result `none`.
-/

namespace LineProcessor

/-! ## Constants -/

/-- Maximum number of lines a buffer can hold (`#define MAX_LINES 50`). -/
def MAX_LINES : Int := 50

/-- Maximum length of a single line (`#define MAX_LINE_LENGTH 1000`). -/
def MAX_LINE_LENGTH : Int := 1000

/-- Length of an output line (`#define OUTPUT_LINE_LENGTH 80`). -/
def OUTPUT_LINE_LENGTH : Nat := 80

/-- The string terminator `'\0'`. -/
def NUL : Char := Char.ofNat 0

/-- A C string: its characters before the terminating NUL. -/
abbrev Line := List Char

/-- The termination marker, the string literal `"STOP"`. -/
def STOP : Line := ['S', 'T', 'O', 'P']

/-- The stop token of the source, the string literal `"STOP\n"`. -/
def STOP_LINE : Line := ['S', 'T', 'O', 'P', '\n']

/-- A well-formed C string has no NUL among its characters. -/
def IsCString (l : Line) : Prop := NUL ∉ l

instance (l : Line) : Decidable (IsCString l) := by
  unfold IsCString; infer_instance

/-! ## The ring buffer -/

/-- The fields of `Buffer` that the code reads and writes.  `lines` is the
storage `char lines[MAX_LINES][MAX_LINE_LENGTH]` laid out row after row:
`lines[s][k]` is at offset `s * MAX_LINE_LENGTH + k`, so a string longer than a
row runs on into the next row.  Offsets outside
`0 .. MAX_LINES * MAX_LINE_LENGTH - 1` are outside the array; C gives no meaning
to an access there.  The field `in` of the source is called `in_` here, `in`
being reserved. -/
structure Buffer where
  lines : Int → Char
  count : Int
  in_ : Int
  out : Int

/-- One byte store `mem[a] = c`. -/
def store (mem : Int → Char) (a : Int) (c : Char) : Int → Char :=
  fun x => if x = a then c else mem x

/-- The library call `strcpy(dst, src)` on the flat storage: the characters of
`src` are stored one after the other from offset `dst`, then the NUL. -/
def strcpy (mem : Int → Char) (dst : Int) : Line → Int → Char
  | [] => store mem dst NUL
  | c :: cs => strcpy (store mem dst c) (dst + 1) cs

/-- Reading a C string out of the flat storage from offset `a`: the characters
up to the first NUL, at most `n` of them. -/
def read_string (mem : Int → Char) : Int → Nat → Line
  | _, 0 => []
  | a, n + 1 => if mem a = NUL then [] else mem a :: read_string mem (a + 1) n

/-- The string found in row `s` of the storage; the read is bounded by the end
of the storage array. -/
def slot (mem : Int → Char) (s : Int) : Line :=
  read_string mem (s * MAX_LINE_LENGTH) ((MAX_LINES - s) * MAX_LINE_LENGTH).toNat

/-- The function `initialize_buffer`: the counter and both cursors are set to
zero, the storage is left as it is. -/
def initialize_buffer (buffer : Buffer) : Buffer :=
  { buffer with count := 0, in_ := 0, out := 0 }

/-- The function `add_to_buffer`.  While `count == MAX_LINES` the caller waits
(`none`); otherwise the line is copied into row `in`, `in` advances modulo
`MAX_LINES` and `count` is incremented. -/
def add_to_buffer (buffer : Buffer) (line : Line) : Option Buffer :=
  if buffer.count = MAX_LINES then none
  else some
    { lines := strcpy buffer.lines (buffer.in_ * MAX_LINE_LENGTH) line
      in_ := Int.tmod (buffer.in_ + 1) MAX_LINES
      count := buffer.count + 1
      out := buffer.out }

/-- The function `remove_from_buffer`.  While `count == 0` the caller waits
(`none`); otherwise the string in row `out` is copied out, `out` advances
modulo `MAX_LINES` and `count` is decremented. -/
def remove_from_buffer (buffer : Buffer) : Option (Buffer × Line) :=
  if buffer.count = 0 then none
  else some
    ({ lines := buffer.lines
       in_ := buffer.in_
       out := Int.tmod (buffer.out + 1) MAX_LINES
       count := buffer.count - 1 },
     slot buffer.lines buffer.out)

/-- A call on one buffer. -/
inductive Call where
  | add (line : Line)
  | remove
  deriving DecidableEq

/-- Runs a sequence of calls on a buffer, each one only if it does not have to
wait; the result is the final buffer and the lines returned by the `remove`
calls, in order.  `none` when some call would have had to wait. -/
def run_calls : Buffer → List Call → Option (Buffer × List Line)
  | b, [] => some (b, [])
  | b, Call.add l :: cs =>
    match add_to_buffer b l with
    | none => none
    | some b1 => run_calls b1 cs
  | b, Call.remove :: cs =>
    match remove_from_buffer b with
    | none => none
    | some (b1, l) =>
      match run_calls b1 cs with
      | none => none
      | some (b2, ls) => some (b2, l :: ls)

/-- The lines passed to `add_to_buffer` by a sequence of calls, in order. -/
def added : List Call → List Line
  | [] => []
  | Call.add l :: cs => l :: added cs
  | Call.remove :: cs => added cs

/-- The number of `remove_from_buffer` calls in a sequence of calls. -/
def removes : List Call → Nat
  | [] => 0
  | Call.add _ :: cs => removes cs
  | Call.remove :: cs => removes cs + 1

/-- The unread lines of a buffer, oldest first: rows `out`, `out + 1`, ...,
`out + count - 1`, taken modulo `MAX_LINES`. -/
def contents (b : Buffer) : List Line :=
  (List.range b.count.toNat).map
    (fun (k : Nat) => slot b.lines (Int.tmod (b.out + (k : Int)) MAX_LINES))

/-- The list queue of capacity `MAX_LINES` that the ring buffer is compared
with: `add` appends at the back unless the queue is full, `remove` takes from
the front unless the queue is empty. -/
def queue_calls : List Line → List Call → Option (List Line × List Line)
  | q, [] => some (q, [])
  | q, Call.add l :: cs =>
    if (q.length : Int) = MAX_LINES then none else queue_calls (q ++ [l]) cs
  | q, Call.remove :: cs =>
    match q with
    | [] => none
    | l :: q1 =>
      match queue_calls q1 cs with
      | none => none
      | some (q2, ls) => some (q2, l :: ls)

/-- A buffer whose fields hold arbitrary values before initialisation. -/
def raw_buffer : Buffer := { lines := fun _ => 'x', count := 7, in_ := 3, out := 99 }

/-- Row `s` of the storage holds the line `l`: its characters from the start of
the row, then the NUL, all within the row. -/
def Holds (mem : Int → Char) (s : Int) (l : Line) : Prop :=
  IsCString l ∧ (l.length : Int) < MAX_LINE_LENGTH ∧
  (∀ i (h : i < l.length), mem (s * MAX_LINE_LENGTH + i) = l[i]) ∧
  mem (s * MAX_LINE_LENGTH + l.length) = NUL

/-- The representation invariant linking a ring buffer to the list queue `q` of
its unread lines. -/
structure Inv (b : Buffer) (q : List Line) : Prop where
  count_eq : b.count = q.length
  count_le : b.count ≤ MAX_LINES
  out_ge : 0 ≤ b.out
  out_lt : b.out < MAX_LINES
  in_eq : b.in_ = (b.out + b.count) % MAX_LINES
  holds : ∀ k (h : k < q.length), Holds b.lines ((b.out + (k : Int)) % MAX_LINES) q[k]

/-- The bounds on the counter and the cursors. -/
def Bounded (b : Buffer) : Prop :=
  0 ≤ b.count ∧ b.count ≤ MAX_LINES ∧ 0 ≤ b.in_ ∧ b.in_ < MAX_LINES ∧
  0 ≤ b.out ∧ b.out < MAX_LINES

/-! ## Character arrays local to the stages -/

/-- An uninitialised `char` array of `n` cells.  Its contents are indeterminate
in C; the filler is a character other than NUL, so a string read from the array
ends only where the code has stored a terminator. -/
def fresh_array (n : Nat) : List Char := List.replicate n '?'

/-- The C string held in a `char` array: the characters before the first NUL. -/
def cstring (arr : List Char) : Line := arr.takeWhile (fun c => c ≠ NUL)

/-! ## The source -/

/-- The characters one `fgets` call takes from the stream when it may store at
most `n` of them: up to and including the first newline. -/
def fgets_chars : Nat → List Char → Line × List Char
  | 0, s => ([], s)
  | _, [] => ([], [])
  | n + 1, c :: s =>
    if c = '\n' then ([c], s)
    else ((fgets_chars n s).1.cons c, (fgets_chars n s).2)

/-- The library call `fgets(line, size, stdin)`: `none` (NULL) at end of input,
otherwise the line read and the rest of the stream. -/
def fgets (size : Nat) (stdin : List Char) : Option (Line × List Char) :=
  match stdin with
  | [] => none
  | _ => some (fgets_chars (size - 1) stdin)

/-- The lines successive calls `fgets(line, sizeof(line), stdin)` deliver, with
`sizeof(line) = MAX_LINE_LENGTH`; each call takes at least one character, so
`fuel = stdin.length` calls exhaust the stream. -/
def source_lines : Nat → List Char → List Line
  | 0, _ => []
  | fuel + 1, stdin =>
    match fgets MAX_LINE_LENGTH.toNat stdin with
    | none => []
    | some (line, rest) => line :: source_lines fuel rest

/-! ## The stages

A stage is modelled by what it does to the sequence of items it takes from its
upstream buffer, the buffers being FIFO queues. -/

/-- What a stage has done once it can do no more: the items it passed to
`add_to_buffer` on its downstream buffer, in order; the upstream items it never
took; and whether it left its loop (`true`) or waits in `remove_from_buffer` on
an upstream that stays empty (`false`). -/
structure Stage where
  put : List Line
  unread : List Line
  exited : Bool
  deriving DecidableEq

/-- The function `input_thread` on the lines `fgets` delivers: every line is
put into `buffer1` until `fgets` returns NULL or the line is `"STOP\n"`; then
the marker `"STOP"` is put. -/
def input_thread : List Line → List Line
  | [] => [STOP]
  | line :: rest => if line = STOP_LINE then [STOP] else line :: input_thread rest

/-- The loop `for (int i = 0; line[i] != '\0'; i++) if (line[i] == '\n')
line[i] = ' ';` of `line_separator_thread`, from index `i`, on the array `line`
in place.  The first argument bounds the number of tests of the loop condition. -/
def replace_newlines : Nat → Nat → Line → Line
  | 0, _, line => line
  | fuel + 1, i, line =>
    if line.getD i NUL = NUL then line
    else if line.getD i NUL = '\n' then replace_newlines fuel (i + 1) (line.set i ' ')
    else replace_newlines fuel (i + 1) line

/-- The line `line_separator_thread` forwards for a data line: the loop is run
from index 0; it tests its condition at most `line.length + 1` times. -/
def normalize (line : Line) : Line := replace_newlines (line.length + 1) 0 line

/-- The function `line_separator_thread` on the items taken from `buffer1`. -/
def line_separator_thread : List Line → Stage
  | [] => { put := [], unread := [], exited := false }
  | line :: rest =>
    if line = STOP then { put := [STOP], unread := rest, exited := true }
    else
      { put := normalize line :: (line_separator_thread rest).put
        unread := (line_separator_thread rest).unread
        exited := (line_separator_thread rest).exited }

/-- The loop of `plus_sign_thread` over `line`, from read index `i` and write
index `j`, storing into the array `processed_line`.  The first argument bounds
the number of tests of the loop condition.  The result is the array and the
final `j`. -/
def collapse_loop (line : Line) : Nat → Nat → Nat → List Char → List Char × Nat
  | 0, _, j, processed_line => (processed_line, j)
  | fuel + 1, i, j, processed_line =>
    if line.getD i NUL = NUL then (processed_line, j)
    else if line.getD i NUL = '+' ∧ line.getD (i + 1) NUL = '+' then
      collapse_loop line fuel (i + 1 + 1) (j + 1) (processed_line.set j '^')
    else
      collapse_loop line fuel (i + 1) (j + 1) (processed_line.set j (line.getD i NUL))

/-- The line `plus_sign_thread` forwards for a data line: the loop is run from
`i = 0`, `j = 0` on a fresh `processed_line[MAX_LINE_LENGTH]`, the terminator is
stored at the final `j`, and the string in `processed_line` is passed on. -/
def collapse (line : Line) : Line :=
  let r := collapse_loop line (line.length + 1) 0 0 (fresh_array MAX_LINE_LENGTH.toNat)
  cstring (r.1.set r.2 NUL)

/-- The function `plus_sign_thread` on the items taken from `buffer2`. -/
def plus_sign_thread : List Line → Stage
  | [] => { put := [], unread := [], exited := false }
  | line :: rest =>
    if line = STOP then { put := [STOP], unread := rest, exited := true }
    else
      { put := collapse line :: (plus_sign_thread rest).put
        unread := (plus_sign_thread rest).unread
        exited := (plus_sign_thread rest).exited }

/-- The variables of `output_thread` that live across lines, and the records
printed so far (one per `printf("%s\n", output_line)`). -/
structure Output where
  output_line : List Char
  output_index : Nat
  printed : List Line
  deriving DecidableEq

/-- The body of the character loop of `output_thread` for the character `c`:
it is stored at `output_index`, which is incremented; when that reaches
`OUTPUT_LINE_LENGTH` the terminator is stored, the string in `output_line` is
printed and `output_index` is reset. -/
def output_char (st : Output) (c : Char) : Output :=
  if st.output_index + 1 = OUTPUT_LINE_LENGTH then
    { output_line := (st.output_line.set st.output_index c).set OUTPUT_LINE_LENGTH NUL
      output_index := 0
      printed := st.printed ++
        [cstring ((st.output_line.set st.output_index c).set OUTPUT_LINE_LENGTH NUL)] }
  else
    { output_line := st.output_line.set st.output_index c
      output_index := st.output_index + 1
      printed := st.printed }

/-- The loop `for (int i = 0; line[i] != '\0'; i++)` of `output_thread`, from
index `i`.  The first argument bounds the number of tests of the loop
condition. -/
def output_chars (line : Line) : Nat → Nat → Output → Output
  | 0, _, st => st
  | fuel + 1, i, st =>
    if line.getD i NUL = NUL then st
    else output_chars line fuel (i + 1) (output_char st (line.getD i NUL))

/-- The outer loop of `output_thread` on the items taken from `buffer3`: the
final variables, the items never taken, and whether the loop was left. -/
def output_loop : List Line → Output → Output × List Line × Bool
  | [], st => (st, [], false)
  | line :: rest, st =>
    if line = STOP then (st, rest, true)
    else output_loop rest (output_chars line (line.length + 1) 0 st)

/-- The state of `output_thread` before the first item is taken:
`output_line[OUTPUT_LINE_LENGTH + 1]` uninitialised, `output_index` zero,
nothing printed. -/
def output_start : Output :=
  { output_line := fresh_array (OUTPUT_LINE_LENGTH + 1), output_index := 0, printed := [] }

/-- The function `output_thread` on the items taken from `buffer3`. -/
def output_thread (upstream : List Line) : Output × List Line × Bool :=
  output_loop upstream output_start

/-- The four stages in sequence: the records `output_thread` prints when each
stage takes what the stage before it has put. -/
def pipeline (source : List Line) : List Line :=
  (output_thread
    (plus_sign_thread (line_separator_thread (input_thread source)).put).put).1.printed

/-! ## Reference functions the code is compared with -/

/-- Newline folding as the specification words it: every newline becomes a
space, every other character is kept. -/
def normalize_ref (line : Line) : Line :=
  line.map (fun c => if c = '\n' then ' ' else c)

/-- Pattern collapsing as the specification words it: scanning left to right,
two consecutive `+` give one `^` and the scan resumes after the pair; any other
character is copied. -/
def collapse_ref : Line → Line
  | [] => []
  | [c] => [c]
  | c :: d :: rest =>
    if c = '+' ∧ d = '+' then '^' :: collapse_ref rest
    else c :: collapse_ref (d :: rest)

/-- Fixed-width repacking as the specification words it: record `i` is
characters `80 * i .. 80 * i + 79` of the character stream, for every `i` with
a full record available. -/
def records_ref (s : List Char) : List Line :=
  (List.range (s.length / OUTPUT_LINE_LENGTH)).map
    (fun (i : Nat) => (s.drop (OUTPUT_LINE_LENGTH * i)).take OUTPUT_LINE_LENGTH)

/-- The character loop of `output_thread` run over each of a list of data
lines in turn. -/
def output_lines (lines : List Line) (st : Output) : Output :=
  lines.foldl (fun st ln => output_chars ln (ln.length + 1) 0 st) st

/-- The invariant of `output_thread` after the character stream `s` has been
consumed: `output_line` has its declared size, the full records of `s` have
been printed, and the characters of `s` after the last full record are the
first `output_index` cells of `output_line`. -/
structure OutInv (st : Output) (s : List Char) : Prop where
  size : st.output_line.length = OUTPUT_LINE_LENGTH + 1
  index : st.output_index = s.length % OUTPUT_LINE_LENGTH
  printed : st.printed = records_ref s
  pending : st.output_line.take st.output_index
    = s.drop (OUTPUT_LINE_LENGTH * (s.length / OUTPUT_LINE_LENGTH))
  chars : IsCString s

/-- The data lines the pipeline carries for a source: the lines before the
first `"STOP\n"`, each normalised and then collapsed. -/
def transformed (source : List Line) : List Line :=
  (source.takeWhile (fun l => decide (l ≠ STOP_LINE))).map (fun l => collapse (normalize l))

/-- A source used to exercise the pipeline theorems: fifteen lines of eight
characters, a stop line, and a line after it. -/
def sample_source : List Line :=
  List.replicate 15 ['a', '+', '+', 'b', '+', '+', 'c', '\n'] ++ [STOP_LINE, ['z', 'z', '\n']]

/-- Data lines used to exercise the stage theorems. -/
def sample_data : List Line :=
  [['a', '+', '+', 'b', '\n'], ['+', '+', '+'], ['S', 'T', 'O', 'P', '\n']]

/-- The calls used to exercise the buffer theorems on a concrete run. -/
def sample_calls : List Call :=
  [Call.add STOP_LINE, Call.add ['a', '+', '+'], Call.remove, Call.add STOP, Call.remove]

/-- Whether no two adjacent characters of the line are both `+`. -/
def no_plus_pair : Line → Bool
  | [] => true
  | [_] => true
  | c :: d :: rest => !(c = '+' ∧ d = '+') && no_plus_pair (d :: rest)

/-- No two adjacent characters of the line are both `+`. -/
def NoPlusPair (l : Line) : Prop := no_plus_pair l = true

instance (l : Line) : Decidable (NoPlusPair l) :=
  inferInstanceAs (Decidable (no_plus_pair l = true))

/-- Ten source lines of eight characters, eighty characters in all, each with
two `++` pairs. -/
def plus_source : List Line :=
  List.replicate 10 ['a', '+', '+', 'b', '+', '+', 'c', '\n']

/-- Ten source lines of eight characters, eighty characters in all, without any
`++` pair, followed by a stop line. -/
def plain_source : List Line :=
  List.replicate 10 ['a', '+', 'b', 'c', ' ', 'd', 'e', '\n'] ++ [STOP_LINE]

/-- Fifty calls of `add_to_buffer`, which fill a buffer. -/
def filling_calls : List Call := List.replicate 50 (Call.add ['a', '\n'])

/-- The number of `++` pairs the left-to-right scan of `collapse_ref` replaces. -/
def pairs_replaced : Line → Nat
  | [] => 0
  | [_] => 0
  | c :: d :: rest =>
    if c = '+' ∧ d = '+' then pairs_replaced rest + 1
    else pairs_replaced (d :: rest)

/-- The values `(i, j)` of the read and write indices at each test of the loop
condition in `plus_sign_thread`: the control flow of `collapse_loop` without
the array. -/
def collapse_trace (line : Line) : Nat → Nat → Nat → List (Nat × Nat)
  | 0, _, _ => []
  | fuel + 1, i, j =>
    if line.getD i NUL = NUL then [(i, j)]
    else if line.getD i NUL = '+' ∧ line.getD (i + 1) NUL = '+' then
      (i, j) :: collapse_trace line fuel (i + 1 + 1) (j + 1)
    else
      (i, j) :: collapse_trace line fuel (i + 1) (j + 1)

/-- A short text of three lines, the last without its newline. -/
def short_stdin : List Char := ['a', 'b', '\n', '+', '+', '\n', 'c']

/-! ## The four threads over the three buffers

The buffers are taken as the FIFO queues of capacity `MAX_LINES` that they are
for C strings shorter than `MAX_LINE_LENGTH`; one step of a thread is one call
of `add_to_buffer` or `remove_from_buffer` (made under the buffer's mutex)
together with the thread's own work up to its next call. -/

/-- Where `line_separator_thread` or `plus_sign_thread` stands: at its
`remove_from_buffer`; at the `add_to_buffer` of a transformed line; at the
`add_to_buffer` of `"STOP"` before its `break`; or returned. -/
inductive Worker where
  | taking
  | putting (item : Line)
  | forwarding
  | done
  deriving DecidableEq

/-- Whether the stage has taken the marker. -/
def Worker.seen : Worker → Bool
  | Worker.taking => false
  | Worker.putting _ => false
  | Worker.forwarding => true
  | Worker.done => true

/-- The state of the program while the four threads run: the lines `fgets` has
yet to deliver, the three buffers, where each thread stands, and the variables
of `output_thread`. -/
structure Sys where
  src : List Line
  t1_done : Bool
  q1 : List Line
  t2 : Worker
  q2 : List Line
  t3 : Worker
  q3 : List Line
  t4_done : Bool
  out : Output
  deriving DecidableEq

/-- The four threads started by `main`. -/
inductive Thread where
  | input
  | separator
  | plus
  | output
  deriving DecidableEq

/-- One step of `input_thread`: the next line, or the marker when `fgets`
returns NULL or delivers `"STOP\n"`, is put into `buffer1`; no step while
`buffer1` is full or after the thread has returned. -/
def step_input (s : Sys) : Option Sys :=
  if s.t1_done then none
  else if (s.q1.length : Int) = MAX_LINES then none
  else
    match s.src with
    | [] => some { s with q1 := s.q1 ++ [STOP], t1_done := true }
    | line :: rest =>
      if line = STOP_LINE then some { s with q1 := s.q1 ++ [STOP], t1_done := true }
      else some { s with q1 := s.q1 ++ [line], src := rest }

/-- One step of a middle stage with transformation `f`, on its upstream and
downstream buffers: a take (none while upstream is empty), after which the
stage holds the transformed line or stands before forwarding the marker; or a
put (none while downstream is full). -/
def step_worker (f : Line → Line) (w : Worker) (up down : List Line) :
    Option (Worker × List Line × List Line) :=
  match w with
  | Worker.taking =>
    match up with
    | [] => none
    | line :: rest =>
      if line = STOP then some (Worker.forwarding, rest, down)
      else some (Worker.putting (f line), rest, down)
  | Worker.putting item =>
    if (down.length : Int) = MAX_LINES then none
    else some (Worker.taking, up, down ++ [item])
  | Worker.forwarding =>
    if (down.length : Int) = MAX_LINES then none
    else some (Worker.done, up, down ++ [STOP])
  | Worker.done => none

/-- One step of `output_thread`: an item is taken from `buffer3` (none while it
is empty); the marker ends the thread, any other line goes through the
character loop. -/
def step_output (s : Sys) : Option Sys :=
  if s.t4_done then none
  else
    match s.q3 with
    | [] => none
    | line :: rest =>
      if line = STOP then some { s with q3 := rest, t4_done := true }
      else some { s with q3 := rest, out := output_chars line (line.length + 1) 0 s.out }

/-- One step of the given thread, `none` when it is blocked or has returned. -/
def step_sys (s : Sys) : Thread → Option Sys
  | Thread.input => step_input s
  | Thread.separator =>
    (step_worker normalize s.t2 s.q1 s.q2).map
      (fun r => { s with t2 := r.1, q1 := r.2.1, q2 := r.2.2 })
  | Thread.plus =>
    (step_worker collapse s.t3 s.q2 s.q3).map
      (fun r => { s with t3 := r.1, q2 := r.2.1, q3 := r.2.2 })
  | Thread.output => step_output s

/-- Runs the threads in the order of the schedule, each for one step; `none`
when a scheduled thread cannot step. -/
def run_sys : Sys → List Thread → Option Sys
  | s, [] => some s
  | s, t :: ts =>
    match step_sys s t with
    | none => none
    | some s1 => run_sys s1 ts

/-- The state after `main` has initialised the buffers and created the
threads. -/
def start_sys (source : List Line) : Sys :=
  { src := source, t1_done := false, q1 := [], t2 := Worker.taking, q2 := [],
    t3 := Worker.taking, q3 := [], t4_done := false, out := output_start }

/-- All four threads have returned, so the joins of `main` return. -/
def all_exited (s : Sys) : Prop :=
  s.t1_done = true ∧ s.t2 = Worker.done ∧ s.t3 = Worker.done ∧ s.t4_done = true

instance (s : Sys) : Decidable (all_exited s) := by
  unfold all_exited; infer_instance

/-- The bare marker occurs among the lines only as the last one. -/
def BareLast : List Line → Prop
  | [] => True
  | x :: xs => (x = STOP → xs = []) ∧ BareLast xs

/-- The marker occurs in the list only among its last two items. -/
def Late : List Line → Prop
  | [] => True
  | x :: xs => (x = STOP → xs.length ≤ 1) ∧ Late xs

/-- A line a buffer row can hold. -/
def Fits (l : Line) : Prop := IsCString l ∧ (l.length : Int) < MAX_LINE_LENGTH

instance (l : Line) : Decidable (Fits l) := by
  unfold Fits; infer_instance

/-- The items `input_thread` has yet to put. -/
def to_put (src : List Line) (t1_done : Bool) : List Line :=
  if t1_done then [] else input_thread src

/-- The invariant between `input_thread`, `buffer1` and its consumer, `seen`
telling whether the consumer has taken the marker. -/
def Link1 (src : List Line) (t1_done : Bool) (q : List Line) (seen : Bool) : Prop :=
  (∀ l ∈ src, Fits l) ∧ (∀ l ∈ q, Fits l) ∧
  (seen = false → Late (q ++ to_put src t1_done) ∧ STOP ∈ q ++ to_put src t1_done) ∧
  (seen = true → (q ++ to_put src t1_done).length ≤ 1)

/-- The invariant between a middle stage `p`, its downstream buffer and the
consumer of that buffer, `seen` telling whether the consumer has taken the
marker. -/
def Link (p : Worker) (q : List Line) (seen : Bool) : Prop :=
  (STOP ∈ q → p = Worker.done) ∧
  (seen = true → p = Worker.done) ∧
  (p = Worker.done → seen = false → STOP ∈ q) ∧
  (∀ x, p = Worker.putting x → x ≠ STOP)

/-- The invariant of the running program. -/
def SysInv (s : Sys) : Prop :=
  Link1 s.src s.t1_done s.q1 s.t2.seen ∧
  Link s.t2 s.q2 s.t3.seen ∧
  Link s.t3 s.q3 s.t4_done ∧
  (∀ l ∈ s.q2, Fits l) ∧ (∀ x, s.t2 = Worker.putting x → Fits x)

/-- The weight `c` for a stage that holds an item it has yet to put. -/
def Worker.weight (c : Nat) : Worker → Nat
  | Worker.putting _ => c
  | Worker.forwarding => c
  | _ => 0

/-- The number of buffer calls still to come: six for an item not yet put by
`input_thread`, five for one in `buffer1`, and so on down to one for an item in
`buffer3`. -/
def steps_left (s : Sys) : Nat :=
  6 * (to_put s.src s.t1_done).length + 5 * s.q1.length + s.t2.weight 4
    + 3 * s.q2.length + s.t3.weight 2 + s.q3.length

/-- A schedule that runs the pipeline to the end on the three lines of
`short_stdin`, the threads interleaved. -/
def sample_schedule : List Thread :=
  [Thread.input, Thread.input, Thread.separator, Thread.separator, Thread.input,
   Thread.separator, Thread.plus, Thread.separator, Thread.plus, Thread.input,
   Thread.output, Thread.separator, Thread.separator, Thread.plus, Thread.plus,
   Thread.output, Thread.plus, Thread.plus, Thread.output, Thread.separator,
   Thread.separator, Thread.plus, Thread.plus, Thread.output]

/-- The items a middle stage has yet to put, given the items yet to reach it
and the stage function that describes a fresh run of it. -/
def worker_rest (stage : List Line → Stage) (w : Worker) (up : List Line) : List Line :=
  match w with
  | Worker.taking => (stage up).put
  | Worker.putting x => x :: (stage up).put
  | Worker.forwarding => [STOP]
  | Worker.done => []

/-- The items yet to reach `line_separator_thread`. -/
def pending1 (s : Sys) : List Line := s.q1 ++ to_put s.src s.t1_done

/-- The items yet to reach `plus_sign_thread`. -/
def pending2 (s : Sys) : List Line :=
  s.q2 ++ worker_rest line_separator_thread s.t2 (pending1 s)

/-- The items yet to reach `output_thread`. -/
def pending3 (s : Sys) : List Line :=
  s.q3 ++ worker_rest plus_sign_thread s.t3 (pending2 s)

/-- The variables `output_thread` ends with when the run is continued from the
state `s`, computed with the stage functions. -/
def final_output (s : Sys) : Output :=
  if s.t4_done then s.out else (output_loop (pending3 s) s.out).1

/-- The C strings the code finds in `line` after the successive calls of
`fgets`: of the characters each call delivers, those before the first NUL (the
only ones `strcmp` and `strcpy` see). -/
def delivered_lines (stdin : List Char) : List Line :=
  (source_lines stdin.length stdin).map cstring

/-- An input whose first line has a NUL byte after `STOP`, followed by 51 lines
`y`. -/
def nul_stdin : List Char :=
  ['S', 'T', 'O', 'P', NUL, '\n'] ++ (List.replicate 51 ['y', '\n']).flatten

/-- A schedule on `nul_stdin`: the first line goes through all four threads,
then `input_thread` runs for as long as it can. -/
def stuck_schedule : List Thread :=
  [Thread.input, Thread.separator, Thread.separator, Thread.plus, Thread.plus,
   Thread.output] ++ List.replicate 50 Thread.input

/-! # Theorems -/

/-! ## Storage lemmas -/

theorem strcpy_below (mem : Int → Char) (dst : Int) (l : Line) (x : Int) (h : x < dst) :
    strcpy mem dst l x = mem x := by
  induction l generalizing mem dst with
  | nil => simp [strcpy, store]; omega
  | cons c cs ih =>
    rw [strcpy, ih _ _ (by omega)]
    simp [store]; omega

theorem strcpy_above (mem : Int → Char) (dst : Int) (l : Line) (x : Int)
    (h : dst + l.length < x) : strcpy mem dst l x = mem x := by
  induction l generalizing mem dst with
  | nil =>
    simp at h
    simp [strcpy, store]; omega
  | cons c cs ih =>
    simp only [List.length_cons, Nat.cast_add, Nat.cast_one] at h
    rw [strcpy, ih _ _ (by omega)]
    simp [store]; omega

theorem strcpy_nul (mem : Int → Char) (dst : Int) (l : Line) :
    strcpy mem dst l (dst + l.length) = NUL := by
  induction l generalizing mem dst with
  | nil => simp [strcpy, store]
  | cons c cs ih =>
    simp only [List.length_cons, Nat.cast_add, Nat.cast_one]
    rw [strcpy]
    have := ih (store mem dst c) (dst + 1)
    rw [← this]; congr 1; omega

theorem strcpy_char (mem : Int → Char) (dst : Int) (l : Line) (i : Nat) (h : i < l.length) :
    strcpy mem dst l (dst + i) = l[i] := by
  induction l generalizing mem dst i with
  | nil => simp at h
  | cons c cs ih =>
    rw [strcpy]
    cases i with
    | zero =>
      rw [strcpy_below _ _ _ _ (by simp)]
      simp [store]
    | succ j =>
      simp only [List.length_cons, Nat.add_lt_add_iff_right] at h
      have := ih (store mem dst c) (dst + 1) j h
      simp only [List.getElem_cons_succ]
      rw [← this]; congr 1; push_cast; omega

theorem read_string_eq (mem : Int → Char) (l : Line) (a : Int) (n : Nat)
    (hc : ∀ i (h : i < l.length), mem (a + i) = l[i])
    (hn : mem (a + l.length) = NUL) (hl : IsCString l) (hf : l.length < n) :
    read_string mem a n = l := by
  induction l generalizing a n with
  | nil =>
    cases n with
    | zero => simp at hf
    | succ m =>
      simp at hn
      simp [read_string, hn]
  | cons c cs ih =>
    cases n with
    | zero => simp at hf
    | succ m =>
      have h0 := hc 0 (by simp)
      simp at h0
      have hcn : c ≠ NUL := by
        intro h; apply hl; simp [h]
      rw [read_string, h0, if_neg hcn]
      congr 1
      apply ih
      · intro i hi
        have := hc (i + 1) (by simp; omega)
        simp only [List.getElem_cons_succ] at this
        rw [← this]; congr 1; push_cast; omega
      · rw [← hn]; congr 1; simp; omega
      · intro h; apply hl; simp [h]
      · simp at hf; omega

theorem slot_eq_of_holds (mem : Int → Char) (s : Int) (l : Line) (h : Holds mem s l)
    (h0 : 0 ≤ s) (h1 : s < MAX_LINES) : slot mem s = l := by
  obtain ⟨hc, hlen, hch, hn⟩ := h
  unfold slot
  apply read_string_eq _ _ _ _ hch hn hc
  simp only [MAX_LINES, MAX_LINE_LENGTH] at *
  omega

theorem holds_strcpy_same (mem : Int → Char) (s : Int) (l : Line) (hc : IsCString l)
    (hlen : (l.length : Int) < MAX_LINE_LENGTH) :
    Holds (strcpy mem (s * MAX_LINE_LENGTH) l) s l :=
  ⟨hc, hlen, fun i h => strcpy_char _ _ _ i h, strcpy_nul _ _ _⟩

theorem holds_strcpy_other (mem : Int → Char) (s t : Int) (l m : Line) (h : Holds mem s l)
    (hst : s ≠ t) (hlen : (m.length : Int) < MAX_LINE_LENGTH) :
    Holds (strcpy mem (t * MAX_LINE_LENGTH) m) s l := by
  obtain ⟨hc, hl, hch, hn⟩ := h
  have key : ∀ i : Int, 0 ≤ i → i < MAX_LINE_LENGTH →
      strcpy mem (t * MAX_LINE_LENGTH) m (s * MAX_LINE_LENGTH + i) =
        mem (s * MAX_LINE_LENGTH + i) := by
    intro i hi0 hi1
    rcases lt_or_gt_of_ne hst with hlt | hgt
    · apply strcpy_below
      simp only [MAX_LINE_LENGTH] at *
      omega
    · apply strcpy_above
      simp only [MAX_LINE_LENGTH] at *
      omega
  refine ⟨hc, hl, ?_, ?_⟩
  · intro i hi
    rw [key _ (by omega) (by omega)]
    exact hch i hi
  · rw [key _ (by omega) hl]
    exact hn

theorem inv_init_buffer (b0 : Buffer) : Inv (initialize_buffer b0) [] where
  count_eq := by simp [initialize_buffer]
  count_le := by simp [initialize_buffer, MAX_LINES]
  out_ge := by simp [initialize_buffer]
  out_lt := by simp [initialize_buffer, MAX_LINES]
  in_eq := by simp [initialize_buffer]
  holds := by intro k h; simp at h

theorem inv_add (b : Buffer) (q : List Line) (l : Line) (hinv : Inv b q)
    (hc : IsCString l) (hlen : (l.length : Int) < MAX_LINE_LENGTH)
    (hfull : b.count ≠ MAX_LINES) :
    ∃ b1, add_to_buffer b l = some b1 ∧ Inv b1 (q ++ [l]) := by
  obtain ⟨h1, h2, h3, h4, h5, h6⟩ := hinv
  have hin0 : 0 ≤ b.in_ := by rw [h5]; simp only [MAX_LINES]; omega
  have hin1 : b.in_ < MAX_LINES := by rw [h5]; simp only [MAX_LINES]; omega
  refine ⟨{ lines := strcpy b.lines (b.in_ * MAX_LINE_LENGTH) l
            in_ := Int.tmod (b.in_ + 1) MAX_LINES
            count := b.count + 1
            out := b.out }, by simp [add_to_buffer, hfull], ?_⟩
  constructor
  · simp [h1]
  · simp only [MAX_LINES] at *; omega
  · exact h3
  · exact h4
  · show Int.tmod (b.in_ + 1) MAX_LINES = (b.out + (b.count + 1)) % MAX_LINES
    rw [Int.tmod_eq_emod (by omega) (by simp [MAX_LINES])]
    simp only [MAX_LINES] at *
    omega
  · intro k hk
    show Holds (strcpy b.lines (b.in_ * MAX_LINE_LENGTH) l) _ _
    by_cases hkq : k < q.length
    · rw [List.getElem_append_left hkq]
      apply holds_strcpy_other _ _ _ _ _ (h6 k hkq) _ hlen
      simp only [MAX_LINES] at *
      omega
    · have hk2 : k = q.length := by simp at hk; omega
      subst hk2
      simp only [List.getElem_concat_length]
      have : (b.out + (q.length : Int)) % MAX_LINES = b.in_ := by rw [h5, h1]
      rw [this]
      exact holds_strcpy_same _ _ _ hc hlen

theorem inv_remove (b : Buffer) (q : List Line) (l : Line) (hinv : Inv b (l :: q)) :
    ∃ b1, remove_from_buffer b = some (b1, l) ∧ Inv b1 q := by
  obtain ⟨h1, h2, h3, h4, h5, h6⟩ := hinv
  simp only [List.length_cons, Nat.cast_add, Nat.cast_one] at h1
  have hne : b.count ≠ 0 := by omega
  have hslot : slot b.lines b.out = l := by
    have := h6 0 (by simp)
    simp only [List.getElem_cons_zero, Nat.cast_zero, add_zero] at this
    rw [Int.emod_eq_of_lt h3 h4] at this
    exact slot_eq_of_holds _ _ _ this h3 h4
  refine ⟨{ lines := b.lines
            in_ := b.in_
            out := Int.tmod (b.out + 1) MAX_LINES
            count := b.count - 1 }, by simp [remove_from_buffer, hne, hslot], ?_⟩
  have hout : Int.tmod (b.out + 1) MAX_LINES = (b.out + 1) % MAX_LINES :=
    Int.tmod_eq_emod (by omega) (by simp [MAX_LINES])
  constructor
  · show b.count - 1 = _
    omega
  · show b.count - 1 ≤ _
    omega
  · show 0 ≤ Int.tmod (b.out + 1) MAX_LINES
    rw [hout]; simp only [MAX_LINES]; omega
  · show Int.tmod (b.out + 1) MAX_LINES < _
    rw [hout]; simp only [MAX_LINES]; omega
  · show b.in_ = (Int.tmod (b.out + 1) MAX_LINES + (b.count - 1)) % MAX_LINES
    rw [hout, h5]; simp only [MAX_LINES]; omega
  · intro k hk
    show Holds b.lines ((Int.tmod (b.out + 1) MAX_LINES + (k : Int)) % MAX_LINES) _
    have := h6 (k + 1) (by simp; omega)
    simp only [List.getElem_cons_succ] at this
    have e : (Int.tmod (b.out + 1) MAX_LINES + (k : Int)) % MAX_LINES
        = (b.out + ((k + 1 : Nat) : Int)) % MAX_LINES := by
      rw [hout]; simp only [MAX_LINES]; push_cast; omega
    rw [e]; exact this

theorem contents_eq_of_inv (b : Buffer) (q : List Line) (hinv : Inv b q) : contents b = q := by
  obtain ⟨h1, h2, h3, h4, h5, h6⟩ := hinv
  have hlen : b.count.toNat = q.length := by omega
  apply List.ext_getElem
  · simp [contents, hlen]
  · intro k hk1 hk2
    simp only [contents, List.getElem_map, List.getElem_range]
    rw [Int.tmod_eq_emod (by omega) (by simp [MAX_LINES])]
    apply slot_eq_of_holds _ _ _ (h6 k hk2)
    · simp only [MAX_LINES]; omega
    · simp only [MAX_LINES]; omega

theorem run_calls_sim (calls : List Call) (b : Buffer) (q : List Line) (hinv : Inv b q)
    (hl : ∀ l ∈ added calls, IsCString l ∧ (l.length : Int) < MAX_LINE_LENGTH) :
    (∃ b1 q1 r, run_calls b calls = some (b1, r) ∧ queue_calls q calls = some (q1, r) ∧
        Inv b1 q1) ∨
      (run_calls b calls = none ∧ queue_calls q calls = none) := by
  induction calls generalizing b q with
  | nil => exact Or.inl ⟨b, q, [], rfl, rfl, hinv⟩
  | cons c cs ih =>
    cases c with
    | add l =>
      have hl1 := hl l (by simp [added])
      have hl2 : ∀ m ∈ added cs, IsCString m ∧ (m.length : Int) < MAX_LINE_LENGTH :=
        fun m hm => hl m (by simp [added, hm])
      by_cases hfull : b.count = MAX_LINES
      · right
        have hq : (q.length : Int) = MAX_LINES := by rw [← hinv.count_eq]; exact hfull
        simp [run_calls, queue_calls, add_to_buffer, hfull, hq]
      · obtain ⟨b1, hb1, hinv1⟩ := inv_add b q l hinv hl1.1 hl1.2 hfull
        have hq : (q.length : Int) ≠ MAX_LINES := by rw [← hinv.count_eq]; exact hfull
        have e1 : run_calls b (Call.add l :: cs) = run_calls b1 cs := by
          simp [run_calls, hb1]
        have e2 : queue_calls q (Call.add l :: cs) = queue_calls (q ++ [l]) cs := by
          simp [queue_calls, hq]
        rw [e1, e2]
        exact ih b1 (q ++ [l]) hinv1 hl2
    | remove =>
      have hl2 : ∀ m ∈ added cs, IsCString m ∧ (m.length : Int) < MAX_LINE_LENGTH :=
        fun m hm => hl m (by simp [added, hm])
      cases q with
      | nil =>
        right
        have h0 : b.count = 0 := by simpa using hinv.count_eq
        simp [run_calls, queue_calls, remove_from_buffer, h0]
      | cons l q1 =>
        obtain ⟨b1, hb1, hinv1⟩ := inv_remove b q1 l hinv
        rcases ih b1 q1 hinv1 hl2 with ⟨b2, q2, r, hr1, hr2, hinv2⟩ | ⟨hn1, hn2⟩
        · left
          exact ⟨b2, q2, l :: r, by simp [run_calls, hb1, hr1], by simp [queue_calls, hr2],
            hinv2⟩
        · right
          exact ⟨by simp [run_calls, hb1, hn1], by simp [queue_calls, hn2]⟩

theorem queue_calls_spec (calls : List Call) (q q1 r : List Line)
    (h : queue_calls q calls = some (q1, r)) :
    r ++ q1 = q ++ added calls ∧ r.length = removes calls := by
  induction calls generalizing q r with
  | nil =>
    simp [queue_calls] at h
    obtain ⟨rfl, rfl⟩ := h
    simp [added, removes]
  | cons c cs ih =>
    cases c with
    | add l =>
      by_cases hq : (q.length : Int) = MAX_LINES
      · simp [queue_calls, hq] at h
      · simp only [queue_calls, hq, if_false] at h
        have := ih _ _ h
        simpa [added, removes] using this
    | remove =>
      cases q with
      | nil => simp [queue_calls] at h
      | cons l q2 =>
        simp only [queue_calls] at h
        cases hrec : queue_calls q2 cs with
        | none => simp [hrec] at h
        | some p =>
          obtain ⟨q3, r3⟩ := p
          simp [hrec] at h
          obtain ⟨rfl, rfl⟩ := h
          have := ih _ _ hrec
          simp [added, removes, this.1, this.2]

theorem bounded_init_buffer (b0 : Buffer) : Bounded (initialize_buffer b0) := by
  simp [Bounded, initialize_buffer, MAX_LINES]

theorem bounded_add (b b1 : Buffer) (l : Line) (hb : Bounded b)
    (h : add_to_buffer b l = some b1) : Bounded b1 := by
  unfold add_to_buffer at h
  split at h
  · simp at h
  · rename_i hfull
    simp only [Option.some.injEq] at h
    subst h
    obtain ⟨h1, h2, h3, h4, h5, h6⟩ := hb
    refine ⟨?_, ?_, ?_, ?_, h5, h6⟩
    · show 0 ≤ b.count + 1
      omega
    · show b.count + 1 ≤ MAX_LINES
      omega
    · exact Int.tmod_nonneg _ (by omega)
    · exact Int.tmod_lt_of_pos _ (by simp [MAX_LINES])

theorem bounded_remove (b b1 : Buffer) (l : Line) (hb : Bounded b)
    (h : remove_from_buffer b = some (b1, l)) : Bounded b1 := by
  unfold remove_from_buffer at h
  split at h
  · simp at h
  · rename_i hempty
    simp only [Option.some.injEq, Prod.mk.injEq] at h
    obtain ⟨h, -⟩ := h
    subst h
    obtain ⟨h1, h2, h3, h4, h5, h6⟩ := hb
    refine ⟨?_, ?_, h3, h4, ?_, ?_⟩
    · show 0 ≤ b.count - 1
      omega
    · show b.count - 1 ≤ MAX_LINES
      omega
    · exact Int.tmod_nonneg _ (by omega)
    · exact Int.tmod_lt_of_pos _ (by simp [MAX_LINES])

theorem bounded_run (calls : List Call) (b b1 : Buffer) (r : List Line) (hb : Bounded b)
    (h : run_calls b calls = some (b1, r)) : Bounded b1 := by
  induction calls generalizing b r with
  | nil =>
    simp [run_calls] at h
    rw [← h.1]; exact hb
  | cons c cs ih =>
    cases c with
    | add l =>
      simp only [run_calls] at h
      cases hadd : add_to_buffer b l with
      | none => simp [hadd] at h
      | some b2 =>
        simp only [hadd] at h
        exact ih b2 r (bounded_add b b2 l hb hadd) h
    | remove =>
      simp only [run_calls] at h
      cases hrem : remove_from_buffer b with
      | none => simp [hrem] at h
      | some p =>
        obtain ⟨b2, l⟩ := p
        simp only [hrem] at h
        cases hrec : run_calls b2 cs with
        | none => simp [hrec] at h
        | some p2 =>
          obtain ⟨b3, r3⟩ := p2
          simp only [hrec, Option.some.injEq, Prod.mk.injEq] at h
          obtain ⟨rfl, -⟩ := h
          exact ih b2 r3 (bounded_remove b b2 l hb hrem) hrec

/-- C1. FIFO: from the state set by `initialize_buffer`, whenever every added
line is a C string shorter than `MAX_LINE_LENGTH`, a sequence of calls runs on
the ring buffer exactly as on the list queue (the same calls would wait, the
same lines are returned, the unread lines are the queue); and in every run in
which no call has to wait, each `remove_from_buffer` returns a line, the k-th
returned line is the k-th added line, and the returned lines followed by the
unread ones are exactly the added lines, in order. -/
theorem ring_buffer_fifo (b0 : Buffer) (calls : List Call)
    (hlines : ∀ l ∈ added calls, IsCString l ∧ (l.length : Int) < MAX_LINE_LENGTH) :
    (run_calls (initialize_buffer b0) calls).map (fun r => (contents r.1, r.2))
        = queue_calls [] calls ∧
      ∀ b removed, run_calls (initialize_buffer b0) calls = some (b, removed) →
        removed.length = removes calls ∧
        removed ++ contents b = added calls ∧
        ∀ k, k < removed.length → removed[k]? = (added calls)[k]? := by
  have hsim := run_calls_sim calls (initialize_buffer b0) [] (inv_init_buffer b0) hlines
  constructor
  · rcases hsim with ⟨b1, q1, r, h1, h2, hinv⟩ | ⟨h1, h2⟩
    · rw [h1, h2]
      simp [contents_eq_of_inv b1 q1 hinv]
    · rw [h1, h2]; rfl
  · intro b removed hrun
    rcases hsim with ⟨b1, q1, r, h1, h2, hinv⟩ | ⟨h1, h2⟩
    · rw [hrun] at h1
      simp only [Option.some.injEq, Prod.mk.injEq] at h1
      obtain ⟨rfl, rfl⟩ := h1
      have hq := queue_calls_spec calls [] q1 removed h2
      rw [contents_eq_of_inv b q1 hinv]
      simp only [List.nil_append] at hq
      refine ⟨hq.2, hq.1, ?_⟩
      intro k hk
      rw [← hq.1, List.getElem?_append_left hk]
    · rw [hrun] at h1; simp at h1

theorem ring_buffer_fifo_witness :
    (∀ l ∈ added sample_calls, IsCString l ∧ (l.length : Int) < MAX_LINE_LENGTH) ∧
    (run_calls (initialize_buffer raw_buffer) sample_calls).map (fun r => (contents r.1, r.2))
        = some ([STOP], [STOP_LINE, ['a', '+', '+']]) ∧
    (run_calls (initialize_buffer raw_buffer) sample_calls).map (fun r => (contents r.1, r.2))
        = queue_calls [] sample_calls :=
  ⟨by decide, by decide, (ring_buffer_fifo raw_buffer sample_calls (by decide)).1⟩

/-- C2. Bounded occupancy: in every buffer state reached from
`initialize_buffer` by `add_to_buffer` and `remove_from_buffer` calls, none of
which has to wait, `0 ≤ count ≤ MAX_LINES` and both cursors `in` and `out` lie
in `0 .. MAX_LINES - 1`. -/
theorem bounded_occupancy (b0 : Buffer) (calls : List Call) (b : Buffer) (removed : List Line)
    (hrun : run_calls (initialize_buffer b0) calls = some (b, removed)) :
    0 ≤ b.count ∧ b.count ≤ MAX_LINES ∧ 0 ≤ b.in_ ∧ b.in_ < MAX_LINES ∧
      0 ≤ b.out ∧ b.out < MAX_LINES :=
  bounded_run calls (initialize_buffer b0) b removed (bounded_init_buffer b0) hrun

theorem bounded_occupancy_witness :
    ∃ b removed, run_calls (initialize_buffer raw_buffer) sample_calls = some (b, removed) ∧
      (b.count = 1 ∧ b.in_ = 3 ∧ b.out = 2) ∧
      (0 ≤ b.count ∧ b.count ≤ MAX_LINES ∧ 0 ≤ b.in_ ∧ b.in_ < MAX_LINES ∧
        0 ≤ b.out ∧ b.out < MAX_LINES) :=
  ⟨_, _, rfl, ⟨rfl, rfl, rfl⟩, bounded_occupancy raw_buffer sample_calls _ _ rfl⟩

/-! ## Strings in character arrays -/

theorem getD_nul_of_le (ln : Line) (i : Nat) (h : ln.length ≤ i) :
    ln.getD i NUL = NUL := List.getD_eq_default _ _ h

theorem getD_ne_nul (ln : Line) (i : Nat) (hc : IsCString ln) (h : i < ln.length) :
    ln.getD i NUL ≠ NUL := by
  rw [List.getD_eq_getElem _ _ h]
  intro e
  exact hc (e ▸ List.getElem_mem h)

theorem isCString_cons (c : Char) (l : Line) : IsCString (c :: l) ↔ c ≠ NUL ∧ IsCString l := by
  unfold IsCString
  simp only [List.mem_cons, not_or]
  constructor
  · rintro ⟨h1, h2⟩; exact ⟨fun e => h1 e.symm, h2⟩
  · rintro ⟨h1, h2⟩; exact ⟨fun e => h1 e.symm, h2⟩

theorem isCString_set (ln : Line) (i : Nat) (c : Char) (hc : IsCString ln) (hn : c ≠ NUL) :
    IsCString (ln.set i c) := by
  intro h
  rcases List.mem_or_eq_of_mem_set h with h1 | h1
  · exact hc h1
  · exact hn h1.symm

/-! ## Line normalisation -/

theorem normalize_ref_cons (c : Char) (l : Line) :
    normalize_ref (c :: l) = (if c = '\n' then ' ' else c) :: normalize_ref l := rfl

theorem replace_newlines_eq (fuel : Nat) (i : Nat) (ln : Line) (hc : IsCString ln)
    (hf : ln.length < i + fuel) :
    replace_newlines fuel i ln = ln.take i ++ normalize_ref (ln.drop i) := by
  induction fuel generalizing i ln with
  | zero =>
    have h : ln.length ≤ i := by omega
    simp [replace_newlines, normalize_ref, List.take_of_length_le h, List.drop_eq_nil_of_le h]
  | succ n ih =>
    rw [replace_newlines]
    by_cases hi : i < ln.length
    · have hne := getD_ne_nul ln i hc hi
      rw [if_neg hne]
      have hget : ln.getD i NUL = ln[i] := List.getD_eq_getElem _ _ hi
      have hdrop : ln.drop i = ln[i] :: ln.drop (i + 1) := List.drop_eq_getElem_cons hi
      have htake : ln.take (i + 1) = ln.take i ++ [ln[i]] := by
        rw [List.take_succ, List.getElem?_eq_getElem hi]; rfl
      rw [hget]
      have hf2 : ln.length < i + 1 + n := by omega
      by_cases hnl : ln[i] = '\n'
      · rw [if_pos hnl, ih (i + 1) (ln.set i ' ') (isCString_set _ _ _ hc (by decide))
          (by simpa using hf2)]
        rw [List.drop_set_of_lt _ _ (by omega), hdrop]
        have : (ln.set i ' ').take (i + 1) = ln.take i ++ [' '] := by
          rw [List.take_succ, List.set_take, List.set_eq_of_length_le (by simp)]
          simp [List.getElem?_set, hi]
        rw [this, normalize_ref_cons, if_pos hnl, List.append_assoc]
        rfl
      · rw [if_neg hnl, ih (i + 1) ln hc hf2, htake, hdrop, normalize_ref_cons, if_neg hnl,
          List.append_assoc]
        rfl
    · have h : ln.length ≤ i := by omega
      rw [if_pos (getD_nul_of_le ln i h)]
      simp [normalize_ref, List.take_of_length_le h, List.drop_eq_nil_of_le h]

theorem normalize_eq_ref (ln : Line) (hc : IsCString ln) :
    normalize ln = normalize_ref ln := by
  unfold normalize
  rw [replace_newlines_eq _ _ _ hc (by omega)]
  simp

theorem normalize_ref_isCString (ln : Line) (hc : IsCString ln) :
    IsCString (normalize_ref ln) := by
  unfold IsCString normalize_ref at *
  simp only [List.mem_map, not_exists, not_and]
  intro c hcm
  by_cases h : c = '\n'
  · simp [h]; decide
  · simp only [h, if_false]
    intro e; exact hc (e ▸ hcm)

theorem normalize_ref_length (ln : Line) : (normalize_ref ln).length = ln.length := by
  simp [normalize_ref]

theorem normalize_ref_ne_stop (ln : Line) (h : ln ≠ STOP) : normalize_ref ln ≠ STOP := by
  intro e
  apply h
  have hlen : ln.length = 4 := by rw [← normalize_ref_length, e]; rfl
  match ln, hlen with
  | [a, b, c, d], _ =>
    simp only [normalize_ref, List.map, STOP, List.cons.injEq, and_true] at e ⊢
    obtain ⟨h1, h2, h3, h4⟩ := e
    refine ⟨?_, ?_, ?_, ?_⟩
    · by_cases g : a = '\n'
      · simp [g] at h1
      · simpa [g] using h1
    · by_cases g : b = '\n'
      · simp [g] at h2
      · simpa [g] using h2
    · by_cases g : c = '\n'
      · simp [g] at h3
      · simpa [g] using h3
    · by_cases g : d = '\n'
      · simp [g] at h4
      · simpa [g] using h4

/-! ## Pattern collapsing -/

theorem cstring_set_nul (arr : List Char) (j : Nat) (hj : j < arr.length)
    (hc : IsCString (arr.take j)) : cstring (arr.set j NUL) = arr.take j := by
  unfold cstring
  rw [List.set_eq_take_append_cons_drop, if_pos hj, List.takeWhile_append_of_pos]
  · simp
  · intro a ha
    simp only [ne_eq, decide_not, Bool.not_eq_true', decide_eq_false_iff_not]
    intro e
    exact hc (e ▸ ha)

theorem take_succ_set (arr : List Char) (j : Nat) (c : Char) (hj : j < arr.length) :
    (arr.set j c).take (j + 1) = arr.take j ++ [c] := by
  rw [List.take_succ, List.set_take, List.set_eq_of_length_le (by simp)]
  simp [List.getElem?_set, hj]

theorem collapse_ref_pair (rest : Line) :
    collapse_ref ('+' :: '+' :: rest) = '^' :: collapse_ref rest := by
  simp [collapse_ref]

theorem collapse_ref_other (c : Char) (rest : Line)
    (h : ¬(c = '+' ∧ rest.getD 0 NUL = '+')) :
    collapse_ref (c :: rest) = c :: collapse_ref rest := by
  cases rest with
  | nil => simp [collapse_ref]
  | cons d r =>
    have h2 : ¬(c = '+' ∧ d = '+') := by simpa using h
    rw [collapse_ref, if_neg h2]

theorem getD_drop_zero (ln : Line) (i : Nat) : (ln.drop i).getD 0 NUL = ln.getD i NUL := by
  simp

theorem collapse_loop_spec (ln : Line) (hc : IsCString ln) (fuel i j : Nat) (arr : List Char)
    (hi : i ≤ ln.length) (hf : ln.length < i + fuel) (hj : j + (ln.length - i) < arr.length) :
    (collapse_loop ln fuel i j arr).1.take (collapse_loop ln fuel i j arr).2
        = arr.take j ++ collapse_ref (ln.drop i) ∧
      (collapse_loop ln fuel i j arr).2 < (collapse_loop ln fuel i j arr).1.length := by
  induction fuel generalizing i j arr with
  | zero => omega
  | succ n ih =>
    rw [collapse_loop]
    by_cases hlt : i < ln.length
    · have hne := getD_ne_nul ln i hc hlt
      rw [if_neg hne]
      have hdrop : ln.drop i = ln.getD i NUL :: ln.drop (i + 1) := by
        rw [List.getD_eq_getElem _ _ hlt]; exact List.drop_eq_getElem_cons hlt
      by_cases hp : ln.getD i NUL = '+' ∧ ln.getD (i + 1) NUL = '+'
      · rw [if_pos hp]
        have hlt2 : i + 1 < ln.length := by
          by_contra hge
          have := getD_nul_of_le ln (i + 1) (by omega)
          rw [this] at hp
          exact absurd hp.2 (by decide)
        have hdrop2 : ln.drop (i + 1) = ln.getD (i + 1) NUL :: ln.drop (i + 1 + 1) := by
          rw [List.getD_eq_getElem _ _ hlt2]; exact List.drop_eq_getElem_cons hlt2
        have := ih (i + 1 + 1) (j + 1) (arr.set j '^') (by omega) (by omega)
          (by simp; omega)
        rw [take_succ_set _ _ _ (by omega)] at this
        rw [hdrop, hdrop2, hp.1, hp.2, collapse_ref_pair]
        simpa using this
      · rw [if_neg hp]
        have := ih (i + 1) (j + 1) (arr.set j (ln.getD i NUL)) (by omega) (by omega)
          (by simp; omega)
        rw [take_succ_set _ _ _ (by omega)] at this
        rw [hdrop, collapse_ref_other _ _ (by rw [getD_drop_zero]; exact hp)]
        simpa using this
    · have h : ln.length ≤ i := by omega
      rw [if_pos (getD_nul_of_le ln i h)]
      simp only [List.drop_eq_nil_of_le h, collapse_ref, List.append_nil, true_and]
      omega

theorem collapse_ref_isCString (ln : Line) (hc : IsCString ln) : IsCString (collapse_ref ln) := by
  induction ln using collapse_ref.induct with
  | case1 => simpa [collapse_ref] using hc
  | case2 c => simpa [collapse_ref] using hc
  | case3 c d rest hp ih =>
    rw [collapse_ref, if_pos hp]
    rw [isCString_cons] at hc ⊢
    have hc2 := hc.2
    rw [isCString_cons] at hc2
    exact ⟨by decide, ih hc2.2⟩
  | case4 c d rest hp ih =>
    rw [collapse_ref, if_neg hp]
    rw [isCString_cons] at hc ⊢
    exact ⟨hc.1, ih hc.2⟩

theorem collapse_eq_ref (ln : Line) (hc : IsCString ln)
    (hlen : (ln.length : Int) < MAX_LINE_LENGTH) : collapse ln = collapse_ref ln := by
  have hfresh : (fresh_array MAX_LINE_LENGTH.toNat).length = 1000 := by
    rw [fresh_array, List.length_replicate]; rfl
  have hl : ln.length < 1000 := by simp only [MAX_LINE_LENGTH] at hlen; omega
  obtain ⟨h1, h2⟩ := collapse_loop_spec ln hc (ln.length + 1) 0 0
    (fresh_array MAX_LINE_LENGTH.toNat) (by omega) (by omega) (by omega)
  simp only [List.take_zero, List.nil_append, List.drop_zero] at h1
  show cstring _ = _
  rw [cstring_set_nul _ _ h2 (by rw [h1]; exact collapse_ref_isCString ln hc), h1]

/-! ## Fixed-width repacking -/

theorem chunk_append (s t : List Char) (i : Nat)
    (h : OUTPUT_LINE_LENGTH * i + OUTPUT_LINE_LENGTH ≤ s.length) :
    ((s ++ t).drop (OUTPUT_LINE_LENGTH * i)).take OUTPUT_LINE_LENGTH
      = (s.drop (OUTPUT_LINE_LENGTH * i)).take OUTPUT_LINE_LENGTH := by
  rw [List.drop_append_of_le_length (by omega), List.take_append_of_le_length]
  simp only [List.length_drop]; omega

theorem records_ref_append (s t : List Char) :
    (List.range (s.length / OUTPUT_LINE_LENGTH)).map
        (fun (i : Nat) => ((s ++ t).drop (OUTPUT_LINE_LENGTH * i)).take OUTPUT_LINE_LENGTH)
      = records_ref s := by
  unfold records_ref
  apply List.map_congr_left
  intro i hi
  rw [List.mem_range] at hi
  apply chunk_append
  have hi2 : i < s.length / 80 := hi
  show 80 * i + 80 ≤ s.length
  omega

theorem isCString_append (s t : Line) : IsCString (s ++ t) ↔ IsCString s ∧ IsCString t := by
  simp [IsCString, not_or]

theorem outInv_char (st : Output) (s : List Char) (c : Char) (hinv : OutInv st s)
    (hc : c ≠ NUL) : OutInv (output_char st c) (s ++ [c]) := by
  obtain ⟨h1, h2, h3, h4, h5⟩ := hinv
  have h1n : st.output_line.length = 81 := h1
  have h2n : st.output_index = s.length % 80 := h2
  have hcs : IsCString (s ++ [c]) := by
    rw [isCString_append, isCString_cons]; exact ⟨h5, hc, by simp [IsCString]⟩
  have hlen : (s ++ [c]).length = s.length + 1 := by simp
  have hle : OUTPUT_LINE_LENGTH * (s.length / OUTPUT_LINE_LENGTH) ≤ s.length := by
    show 80 * (s.length / 80) ≤ s.length
    omega
  have hpend : (st.output_line.set st.output_index c).take (st.output_index + 1)
      = (s ++ [c]).drop (OUTPUT_LINE_LENGTH * (s.length / OUTPUT_LINE_LENGTH)) := by
    rw [take_succ_set _ _ _ (by omega), h4, List.drop_append_of_le_length hle]
  unfold output_char
  by_cases hfull : st.output_index + 1 = OUTPUT_LINE_LENGTH
  · rw [if_pos hfull]
    have hfn : st.output_index + 1 = 80 := hfull
    have hq : (s ++ [c]).length / OUTPUT_LINE_LENGTH = s.length / OUTPUT_LINE_LENGTH + 1 := by
      show (s ++ [c]).length / 80 = s.length / 80 + 1
      omega
    have hr : (s ++ [c]).length % OUTPUT_LINE_LENGTH = 0 := by
      show (s ++ [c]).length % 80 = 0
      omega
    have e : (st.output_line.set st.output_index c).take OUTPUT_LINE_LENGTH
        = (s ++ [c]).drop (OUTPUT_LINE_LENGTH * (s.length / OUTPUT_LINE_LENGTH)) := by
      have := hpend
      rw [hfull] at this
      exact this
    have hrec : cstring ((st.output_line.set st.output_index c).set OUTPUT_LINE_LENGTH NUL)
        = ((s ++ [c]).drop (OUTPUT_LINE_LENGTH * (s.length / OUTPUT_LINE_LENGTH))).take
            OUTPUT_LINE_LENGTH := by
      rw [cstring_set_nul _ _ (by simp [h1]), e]
      · rw [List.take_of_length_le]
        rw [List.length_drop]
        show (s ++ [c]).length - 80 * (s.length / 80) ≤ 80
        omega
      · rw [e]
        intro hmem
        exact hcs (List.mem_of_mem_drop hmem)
    constructor
    · simp [h1]
    · exact hr.symm
    · show st.printed ++ [_] = records_ref (s ++ [c])
      rw [hrec, h3]
      conv_rhs => rw [records_ref, hq, List.range_succ, List.map_append, records_ref_append]
      rfl
    · show List.take 0 _ = _
      rw [hq, List.take_zero, List.drop_eq_nil_of_le]
      show (s ++ [c]).length ≤ 80 * (s.length / 80 + 1)
      omega
    · exact hcs
  · rw [if_neg hfull]
    have hfn : st.output_index + 1 ≠ 80 := hfull
    have hq : (s ++ [c]).length / OUTPUT_LINE_LENGTH = s.length / OUTPUT_LINE_LENGTH := by
      show (s ++ [c]).length / 80 = s.length / 80
      omega
    constructor
    · simp [h1]
    · show st.output_index + 1 = (s ++ [c]).length % 80
      omega
    · show st.printed = records_ref (s ++ [c])
      rw [h3]
      conv_rhs => rw [records_ref, hq, records_ref_append]
    · show List.take (st.output_index + 1) _ = _
      rw [hq]; exact hpend
    · exact hcs

theorem outInv_chars (ln : Line) (hc : IsCString ln) (fuel i : Nat) (st : Output)
    (s : List Char) (hinv : OutInv st s) (hf : ln.length < i + fuel) :
    OutInv (output_chars ln fuel i st) (s ++ ln.drop i) := by
  induction fuel generalizing i st s with
  | zero =>
    have h : ln.length ≤ i := by omega
    simpa [output_chars, List.drop_eq_nil_of_le h] using hinv
  | succ n ih =>
    rw [output_chars]
    by_cases hlt : i < ln.length
    · have hne := getD_ne_nul ln i hc hlt
      rw [if_neg hne]
      have hdrop : ln.drop i = ln.getD i NUL :: ln.drop (i + 1) := by
        rw [List.getD_eq_getElem _ _ hlt]; exact List.drop_eq_getElem_cons hlt
      have := ih (i + 1) (output_char st (ln.getD i NUL)) (s ++ [ln.getD i NUL])
        (outInv_char st s _ hinv hne) (by omega)
      rw [hdrop]
      simpa using this
    · have h : ln.length ≤ i := by omega
      rw [if_pos (getD_nul_of_le ln i h)]
      simpa [List.drop_eq_nil_of_le h] using hinv

theorem outInv_lines (lines : List Line) (hc : ∀ l ∈ lines, IsCString l) (st : Output)
    (s : List Char) (hinv : OutInv st s) :
    OutInv (output_lines lines st) (s ++ lines.flatten) := by
  induction lines generalizing st s with
  | nil => simpa [output_lines] using hinv
  | cons l ls ih =>
    have h1 := outInv_chars l (hc l (by simp)) (l.length + 1) 0 st s hinv (by omega)
    have h2 := ih (fun m hm => hc m (by simp [hm])) _ _ h1
    simpa [output_lines] using h2

theorem outInv_fresh : OutInv output_start [] where
  size := by rw [output_start, fresh_array, List.length_replicate]
  index := rfl
  printed := rfl
  pending := rfl
  chars := by simp [IsCString]

theorem output_loop_data (pre rest : List Line) (st : Output) (h : STOP ∉ pre) :
    output_loop (pre ++ rest) st = output_loop rest (output_lines pre st) := by
  induction pre generalizing st with
  | nil => rfl
  | cons l ls ih =>
    have hl : l ≠ STOP := fun e => h (by simp [e])
    have hls : STOP ∉ ls := fun e => h (by simp [e])
    rw [List.cons_append, output_loop, if_neg hl, ih _ hls]
    rfl

theorem records_ref_take (s : List Char) (k : Nat) (hk : OUTPUT_LINE_LENGTH * k ≤ s.length) :
    ((List.range k).map
        (fun (i : Nat) => (s.drop (OUTPUT_LINE_LENGTH * i)).take OUTPUT_LINE_LENGTH)).flatten
      = s.take (OUTPUT_LINE_LENGTH * k) := by
  induction k with
  | zero => simp
  | succ n ih =>
    have hn : OUTPUT_LINE_LENGTH * n ≤ s.length := by
      have : OUTPUT_LINE_LENGTH * n ≤ OUTPUT_LINE_LENGTH * (n + 1) := Nat.mul_le_mul_left _ (by omega)
      omega
    rw [List.range_succ, List.map_append, List.flatten_append, ih hn, Nat.mul_succ,
      List.take_add]
    simp

theorem records_ref_flatten (s : List Char) :
    (records_ref s).flatten
      = s.take (OUTPUT_LINE_LENGTH * (s.length / OUTPUT_LINE_LENGTH)) :=
  records_ref_take s _ (Nat.mul_div_le _ _)

theorem records_ref_length (s : List Char) :
    (records_ref s).length = s.length / OUTPUT_LINE_LENGTH := by
  simp [records_ref]

theorem records_ref_getElem? (s : List Char) (i : Nat) (h : i < s.length / OUTPUT_LINE_LENGTH) :
    (records_ref s)[i]? = some ((s.drop (OUTPUT_LINE_LENGTH * i)).take OUTPUT_LINE_LENGTH) := by
  simp [records_ref, List.getElem?_map, List.getElem?_range h]

theorem records_ref_mem_length (s : List Char) (r : Line) (h : r ∈ records_ref s) :
    r.length = OUTPUT_LINE_LENGTH := by
  unfold records_ref at h
  rw [List.mem_map] at h
  obtain ⟨i, hi, rfl⟩ := h
  rw [List.mem_range] at hi
  have hi2 : i < s.length / 80 := hi
  rw [List.length_take, List.length_drop]
  show min 80 (s.length - 80 * i) = 80
  omega

/-! ## The stage loops -/

theorem input_thread_eq (source : List Line) :
    input_thread source = source.takeWhile (fun l => decide (l ≠ STOP_LINE)) ++ [STOP] := by
  induction source with
  | nil => rfl
  | cons l ls ih =>
    by_cases h : l = STOP_LINE
    · simp [input_thread, h]
    · simp [input_thread, h, ih]

theorem line_separator_thread_data (pre : List Line) (rest : List Line) (h : STOP ∉ pre) :
    line_separator_thread (pre ++ rest) =
      { put := pre.map normalize ++ (line_separator_thread rest).put
        unread := (line_separator_thread rest).unread
        exited := (line_separator_thread rest).exited } := by
  induction pre with
  | nil => simp
  | cons l ls ih =>
    have hl : l ≠ STOP := fun e => h (by simp [e])
    have hls : STOP ∉ ls := fun e => h (by simp [e])
    rw [List.cons_append, line_separator_thread, if_neg hl, ih hls]
    simp

theorem plus_sign_thread_data (pre : List Line) (rest : List Line) (h : STOP ∉ pre) :
    plus_sign_thread (pre ++ rest) =
      { put := pre.map collapse ++ (plus_sign_thread rest).put
        unread := (plus_sign_thread rest).unread
        exited := (plus_sign_thread rest).exited } := by
  induction pre with
  | nil => simp
  | cons l ls ih =>
    have hl : l ≠ STOP := fun e => h (by simp [e])
    have hls : STOP ∉ ls := fun e => h (by simp [e])
    rw [List.cons_append, plus_sign_thread, if_neg hl, ih hls]
    simp

theorem collapse_ref_eq_self (ln : Line) (h : '^' ∉ collapse_ref ln) : collapse_ref ln = ln := by
  induction ln using collapse_ref.induct with
  | case1 => rfl
  | case2 c => rfl
  | case3 c d rest hp ih =>
    rw [collapse_ref, if_pos hp] at h
    simp at h
  | case4 c d rest hp ih =>
    rw [collapse_ref, if_neg hp] at h ⊢
    rw [ih (fun hm => h (List.mem_cons_of_mem _ hm))]

theorem collapse_ref_ne_stop (ln : Line) (h : ln ≠ STOP) : collapse_ref ln ≠ STOP := by
  intro e
  apply h
  rw [← collapse_ref_eq_self ln (by rw [e]; decide), e]

theorem normalize_ne_stop (ln : Line) (hc : IsCString ln) (h : ln ≠ STOP) :
    normalize ln ≠ STOP := by
  rw [normalize_eq_ref ln hc]; exact normalize_ref_ne_stop ln h

theorem collapse_ne_stop (ln : Line) (hc : IsCString ln)
    (hlen : (ln.length : Int) < MAX_LINE_LENGTH) (h : ln ≠ STOP) : collapse ln ≠ STOP := by
  rw [collapse_eq_ref ln hc hlen]; exact collapse_ref_ne_stop ln h

theorem collapse_ref_length_le (ln : Line) : (collapse_ref ln).length ≤ ln.length := by
  induction ln using collapse_ref.induct with
  | case1 => simp [collapse_ref]
  | case2 c => simp [collapse_ref]
  | case3 c d rest hp ih =>
    rw [collapse_ref, if_pos hp]
    simp only [List.length_cons]; omega
  | case4 c d rest hp ih =>
    rw [collapse_ref, if_neg hp]
    simp only [List.length_cons] at ih ⊢; omega

theorem collapse_ref_replicate (k : Nat) :
    collapse_ref (List.replicate k '+')
      = List.replicate (k / 2) '^' ++ List.replicate (k % 2) '+' := by
  induction k using Nat.strong_induction_on with
  | _ k ih =>
    match k with
    | 0 => rfl
    | 1 => rfl
    | n + 2 =>
      have e : List.replicate (n + 2) '+' = '+' :: '+' :: List.replicate n '+' := rfl
      rw [e, collapse_ref_pair, ih n (by omega)]
      have h1 : (n + 2) / 2 = n / 2 + 1 := by omega
      have h2 : (n + 2) % 2 = n % 2 := by omega
      rw [h1, h2]
      rfl

theorem line_separator_thread_marker (pre post : List Line) (h : STOP ∉ pre) :
    line_separator_thread (pre ++ STOP :: post) =
      { put := pre.map normalize ++ [STOP], unread := post, exited := true } := by
  rw [line_separator_thread_data pre _ h]
  simp [line_separator_thread]

theorem plus_sign_thread_marker (pre post : List Line) (h : STOP ∉ pre) :
    plus_sign_thread (pre ++ STOP :: post) =
      { put := pre.map collapse ++ [STOP], unread := post, exited := true } := by
  rw [plus_sign_thread_data pre _ h]
  simp [plus_sign_thread]

theorem output_thread_marker (pre post : List Line) (h : STOP ∉ pre) :
    output_thread (pre ++ STOP :: post) = (output_lines pre output_start, post, true) := by
  unfold output_thread
  rw [output_loop_data pre _ _ h]
  simp [output_loop, output_start]

theorem output_thread_waiting (pre : List Line) (h : STOP ∉ pre) :
    output_thread pre = (output_lines pre output_start, [], false) := by
  unfold output_thread
  have := output_loop_data pre [] output_start h
  rw [List.append_nil] at this
  rw [this]
  rfl

theorem outInv_output_lines (lines : List Line) (hc : ∀ l ∈ lines, IsCString l) :
    OutInv (output_lines lines output_start) lines.flatten := by
  have := outInv_lines lines hc output_start [] outInv_fresh
  simpa using this

theorem not_mem_map_of_ne (f : Line → Line) (pre : List Line)
    (h : ∀ l ∈ pre, f l ≠ STOP) : STOP ∉ pre.map f := by
  intro hm
  rw [List.mem_map] at hm
  obtain ⟨l, hl, e⟩ := hm
  exact h l hl e

theorem pipeline_eq (source : List Line) (hstop : ∀ l ∈ source, l ≠ STOP)
    (hsrc : ∀ l ∈ source, IsCString l ∧ (l.length : Int) < MAX_LINE_LENGTH) :
    pipeline source = records_ref (transformed source).flatten := by
  have hsub : ∀ l ∈ source.takeWhile (fun l => decide (l ≠ STOP_LINE)), l ∈ source :=
    fun l hl => List.takeWhile_subset _ hl
  have h1 : STOP ∉ source.takeWhile (fun l => decide (l ≠ STOP_LINE)) :=
    fun hm => hstop _ (hsub _ hm) rfl
  have hnc : ∀ l ∈ source, IsCString (normalize l) ∧
      ((normalize l).length : Int) < MAX_LINE_LENGTH := by
    intro l hl
    rw [normalize_eq_ref l (hsrc l hl).1, normalize_ref_length]
    exact ⟨normalize_ref_isCString l (hsrc l hl).1, (hsrc l hl).2⟩
  have h2 : STOP ∉ (source.takeWhile (fun l => decide (l ≠ STOP_LINE))).map normalize :=
    not_mem_map_of_ne _ _
      (fun l hl => normalize_ne_stop l (hsrc l (hsub l hl)).1 (hstop l (hsub l hl)))
  have h3 : STOP ∉ ((source.takeWhile (fun l => decide (l ≠ STOP_LINE))).map normalize).map
      collapse := by
    apply not_mem_map_of_ne
    intro m hm
    rw [List.mem_map] at hm
    obtain ⟨l, hl, rfl⟩ := hm
    exact collapse_ne_stop _ (hnc l (hsub l hl)).1 (hnc l (hsub l hl)).2
      (normalize_ne_stop l (hsrc l (hsub l hl)).1 (hstop l (hsub l hl)))
  have h4 : ∀ m ∈ ((source.takeWhile (fun l => decide (l ≠ STOP_LINE))).map normalize).map
      collapse, IsCString m := by
    intro m hm
    rw [List.mem_map] at hm
    obtain ⟨n, hn, rfl⟩ := hm
    rw [List.mem_map] at hn
    obtain ⟨l, hl, rfl⟩ := hn
    rw [collapse_eq_ref _ (hnc l (hsub l hl)).1 (hnc l (hsub l hl)).2]
    exact collapse_ref_isCString _ (hnc l (hsub l hl)).1
  unfold pipeline
  rw [input_thread_eq, line_separator_thread_marker _ [] h1, plus_sign_thread_marker _ [] h2,
    output_thread_marker _ [] h3]
  rw [(outInv_output_lines _ h4).printed]
  simp [transformed, List.map_map, Function.comp_def]

/-- C3. End-to-end no loss or duplication: for every sequence of source lines
(C strings shorter than `MAX_LINE_LENGTH`, as `fgets` delivers them) none of
which is the bare marker `"STOP"`, the concatenation of the records the four
stages in sequence print, followed by fewer than 80 missing characters, is the
concatenation of `collapse (normalize l)` over the source lines `l` before the
first `"STOP\n"` (all lines when there is none). -/
theorem end_to_end_no_loss (source : List Line) (hstop : ∀ l ∈ source, l ≠ STOP)
    (hsrc : ∀ l ∈ source, IsCString l ∧ (l.length : Int) < MAX_LINE_LENGTH) :
    ∃ missing : List Char,
      ((source.takeWhile (fun l => decide (l ≠ STOP_LINE))).map
          (fun l => collapse (normalize l))).flatten
        = (pipeline source).flatten ++ missing ∧
      missing.length < OUTPUT_LINE_LENGTH := by
  rw [pipeline_eq source hstop hsrc, records_ref_flatten]
  refine ⟨(transformed source).flatten.drop
    (OUTPUT_LINE_LENGTH * ((transformed source).flatten.length / OUTPUT_LINE_LENGTH)), ?_, ?_⟩
  · rw [List.take_append_drop]; rfl
  · rw [List.length_drop]
    show (transformed source).flatten.length - 80 * ((transformed source).flatten.length / 80)
      < 80
    omega

set_option maxRecDepth 100000 in
theorem end_to_end_no_loss_witness :
    (∀ l ∈ sample_source, l ≠ STOP) ∧
    (∀ l ∈ sample_source, IsCString l ∧ (l.length : Int) < MAX_LINE_LENGTH) ∧
    (pipeline sample_source).length = 1 ∧
    ∃ missing : List Char,
      ((sample_source.takeWhile (fun l => decide (l ≠ STOP_LINE))).map
          (fun l => collapse (normalize l))).flatten
        = (pipeline sample_source).flatten ++ missing ∧
      missing.length < OUTPUT_LINE_LENGTH :=
  ⟨by decide, by decide, by decide, end_to_end_no_loss sample_source (by decide) (by decide)⟩

/-- C4. Termination determinism per stage: on an upstream sequence whose first
marker `"STOP"` comes after the data items `pre` (C strings shorter than
`MAX_LINE_LENGTH`), `line_separator_thread` and `plus_sign_thread` put the
transformed items of `pre` in order and then one `"STOP"`, which is the only
marker they put and is last, and they exit; `output_thread` exits with the
variables it has after the items of `pre`, so nothing is printed for the marker;
and in all three the items after the first marker are left unread. -/
theorem termination_per_stage (pre post : List Line) (hpre : STOP ∉ pre)
    (hc : ∀ l ∈ pre, IsCString l ∧ (l.length : Int) < MAX_LINE_LENGTH) :
    (line_separator_thread (pre ++ STOP :: post)
        = { put := pre.map normalize ++ [STOP], unread := post, exited := true } ∧
      (pre.map normalize ++ [STOP]).count STOP = 1) ∧
    (plus_sign_thread (pre ++ STOP :: post)
        = { put := pre.map collapse ++ [STOP], unread := post, exited := true } ∧
      (pre.map collapse ++ [STOP]).count STOP = 1) ∧
    (output_thread (pre ++ STOP :: post) = ((output_thread pre).1, post, true) ∧
      (output_thread (pre ++ STOP :: post)).1.printed = records_ref pre.flatten) := by
  have h2 : STOP ∉ pre.map normalize :=
    not_mem_map_of_ne _ _ (fun l hl => normalize_ne_stop l (hc l hl).1 (fun e => hpre (e ▸ hl)))
  have h3 : STOP ∉ pre.map collapse :=
    not_mem_map_of_ne _ _
      (fun l hl => collapse_ne_stop l (hc l hl).1 (hc l hl).2 (fun e => hpre (e ▸ hl)))
  refine ⟨⟨line_separator_thread_marker pre post hpre, ?_⟩,
    ⟨plus_sign_thread_marker pre post hpre, ?_⟩, ?_, ?_⟩
  · rw [List.count_append, List.count_eq_zero_of_not_mem h2, List.count_singleton_self]
  · rw [List.count_append, List.count_eq_zero_of_not_mem h3, List.count_singleton_self]
  · rw [output_thread_marker pre post hpre, output_thread_waiting pre hpre]
  · rw [output_thread_marker pre post hpre]
    exact (outInv_output_lines pre (fun l hl => (hc l hl).1)).printed

theorem termination_per_stage_witness :
    STOP ∉ sample_data ∧
    (∀ l ∈ sample_data, IsCString l ∧ (l.length : Int) < MAX_LINE_LENGTH) ∧
    (line_separator_thread (sample_data ++ STOP :: [STOP, ['x']])
        = { put := sample_data.map normalize ++ [STOP], unread := [STOP, ['x']],
            exited := true } ∧
      (sample_data.map normalize ++ [STOP]).count STOP = 1) ∧
    (plus_sign_thread (sample_data ++ STOP :: [STOP, ['x']])
        = { put := sample_data.map collapse ++ [STOP], unread := [STOP, ['x']],
            exited := true } ∧
      (sample_data.map collapse ++ [STOP]).count STOP = 1) ∧
    (output_thread (sample_data ++ STOP :: [STOP, ['x']])
        = ((output_thread sample_data).1, [STOP, ['x']], true) ∧
      (output_thread (sample_data ++ STOP :: [STOP, ['x']])).1.printed
        = records_ref sample_data.flatten) :=
  ⟨by decide, by decide,
    termination_per_stage sample_data [STOP, ['x']] (by decide) (by decide)⟩

theorem collapse_ref_append (pre post : Line) (h : pre.getLast? ≠ some '+') :
    collapse_ref (pre ++ post) = collapse_ref pre ++ collapse_ref post := by
  induction pre using collapse_ref.induct with
  | case1 => simp [collapse_ref]
  | case2 c =>
    have hc : c ≠ '+' := by simpa using h
    rw [List.singleton_append, collapse_ref_other c post (fun hp => hc hp.1)]
    rfl
  | case3 c d rest hp ih =>
    obtain ⟨rfl, rfl⟩ := hp
    have h2 : rest.getLast? ≠ some '+' := by
      cases rest with
      | nil => simp
      | cons e r => simpa [List.getLast?_cons_cons] using h
    rw [List.cons_append, List.cons_append, collapse_ref_pair, collapse_ref_pair, ih h2]
    rfl
  | case4 c d rest hp ih =>
    have h2 : (d :: rest).getLast? ≠ some '+' := by
      simpa [List.getLast?_cons_cons] using h
    have e1 : collapse_ref (c :: d :: rest) = c :: collapse_ref (d :: rest) := by
      rw [collapse_ref, if_neg hp]
    rw [e1, List.cons_append,
      collapse_ref_other c (d :: rest ++ post) (by simpa using hp), ih h2]
    rfl

theorem collapse_ref_run (k : Nat) (post : Line) (h : post.head? ≠ some '+') :
    collapse_ref (List.replicate k '+' ++ post)
      = List.replicate (k / 2) '^' ++ List.replicate (k % 2) '+' ++ collapse_ref post := by
  induction k using Nat.strong_induction_on with
  | _ k ih =>
    match k with
    | 0 => simp
    | 1 =>
      have : ¬('+' = '+' ∧ post.getD 0 NUL = '+') := by
        cases post with
        | nil => simp; decide
        | cons d r => simpa using h
      show collapse_ref ('+' :: post) = _
      rw [collapse_ref_other _ _ this]
      rfl
    | n + 2 =>
      have e : List.replicate (n + 2) '+' ++ post = '+' :: '+' :: (List.replicate n '+' ++ post) :=
        rfl
      rw [e, collapse_ref_pair, ih n (by omega)]
      have h1 : (n + 2) / 2 = n / 2 + 1 := by omega
      have h2 : (n + 2) % 2 = n % 2 := by omega
      rw [h1, h2]
      rfl

/-- C5. Pattern collapsing equals the greedy reference: for every line (a C
string shorter than `MAX_LINE_LENGTH`) the string `plus_sign_thread` forwards is
the left-to-right greedy scan `collapse_ref` of it; `"a++b++c "` becomes
`"a^b^c "`, `"ab+c "` is unchanged, and a run of `k` plus signs, alone or between
a part that does not end in a plus sign and a part that does not begin with
one, becomes `k / 2` carets followed by `k % 2` plus signs. -/
theorem collapse_is_greedy (ln : Line) (rest : List Line) (k : Nat) (pre post : Line)
    (hc : IsCString ln) (hlen : (ln.length : Int) < MAX_LINE_LENGTH)
    (hrc : IsCString (pre ++ List.replicate k '+' ++ post))
    (hrl : ((pre ++ List.replicate k '+' ++ post).length : Int) < MAX_LINE_LENGTH)
    (hpre : pre.getLast? ≠ some '+') (hpost : post.head? ≠ some '+') :
    collapse ln = collapse_ref ln ∧
    (plus_sign_thread (ln :: rest)).put.head? = some (collapse_ref ln) ∧
    collapse ['a', '+', '+', 'b', '+', '+', 'c', ' '] = ['a', '^', 'b', '^', 'c', ' '] ∧
    collapse ['a', 'b', '+', 'c', ' '] = ['a', 'b', '+', 'c', ' '] ∧
    collapse (List.replicate k '+')
      = List.replicate (k / 2) '^' ++ List.replicate (k % 2) '+' ∧
    collapse (pre ++ List.replicate k '+' ++ post)
      = collapse pre ++ List.replicate (k / 2) '^' ++ List.replicate (k % 2) '+'
          ++ collapse post := by
  have hparts := hrc
  rw [isCString_append, isCString_append] at hparts
  obtain ⟨⟨hc1, hc2⟩, hc3⟩ := hparts
  have hrl0 := hrl
  simp only [List.length_append, List.length_replicate, Nat.cast_add] at hrl
  have hl1 : (pre.length : Int) < MAX_LINE_LENGTH := by omega
  have hl2 : ((List.replicate k '+').length : Int) < MAX_LINE_LENGTH := by
    rw [List.length_replicate]; omega
  have hl3 : (post.length : Int) < MAX_LINE_LENGTH := by omega
  refine ⟨collapse_eq_ref ln hc hlen, ?_, by decide, by decide, ?_, ?_⟩
  · by_cases h : ln = STOP
    · subst h
      simp only [plus_sign_thread, if_true, List.head?_cons]
      rfl
    · simp only [plus_sign_thread, if_neg h, List.head?_cons]
      rw [collapse_eq_ref ln hc hlen]
  · rw [collapse_eq_ref _ hc2 hl2, collapse_ref_replicate]
  · rw [collapse_eq_ref _ hrc hrl0, collapse_eq_ref pre hc1 hl1, collapse_eq_ref post hc3 hl3,
      List.append_assoc, collapse_ref_append _ _ hpre, collapse_ref_run k post hpost]
    simp only [List.append_assoc]

theorem collapse_is_greedy_witness :
    IsCString ['+', '+', 'x', '+', '+', '+'] ∧
    IsCString (['x', 'y'] ++ List.replicate 5 '+' ++ ['z']) ∧
    collapse ['+', '+', 'x', '+', '+', '+'] = collapse_ref ['+', '+', 'x', '+', '+', '+'] ∧
    collapse ['+', '+', 'x', '+', '+', '+'] = ['^', 'x', '^', '+'] ∧
    collapse (['x', 'y'] ++ List.replicate 5 '+' ++ ['z'])
      = collapse ['x', 'y'] ++ List.replicate (5 / 2) '^' ++ List.replicate (5 % 2) '+'
          ++ collapse ['z'] :=
  ⟨by decide, by decide,
    (collapse_is_greedy ['+', '+', 'x', '+', '+', '+'] [] 5 ['x', 'y'] ['z'] (by decide)
      (by decide) (by decide) (by decide) (by decide) (by decide)).1,
    by decide,
    (collapse_is_greedy ['+', '+', 'x', '+', '+', '+'] [] 5 ['x', 'y'] ['z'] (by decide)
      (by decide) (by decide) (by decide) (by decide) (by decide)).2.2.2.2.2⟩

/-- C6. Line normalisation: for every data line (a C string other than the
marker) the string `line_separator_thread` forwards has the length of the
input, a space at every position where the input has a newline and the input's
character at every other position; `"ab+c\n"` becomes `"ab+c "`. -/
theorem normalize_spec (ln : Line) (rest : List Line) (hc : IsCString ln) (hne : ln ≠ STOP) :
    (line_separator_thread (ln :: rest)).put
        = normalize ln :: (line_separator_thread rest).put ∧
    (normalize ln).length = ln.length ∧
    (∀ (i : Nat) (c : Char), ln[i]? = some c →
        (normalize ln)[i]? = some (if c = '\n' then ' ' else c)) ∧
    normalize ['a', 'b', '+', 'c', '\n'] = ['a', 'b', '+', 'c', ' '] := by
  refine ⟨by simp [line_separator_thread, hne], ?_, ?_, by decide⟩
  · rw [normalize_eq_ref ln hc, normalize_ref_length]
  · intro i c hi
    rw [normalize_eq_ref ln hc, normalize_ref, List.getElem?_map, hi]
    rfl

theorem normalize_spec_witness :
    IsCString ['a', '\n', 'b', '\n'] ∧ ['a', '\n', 'b', '\n'] ≠ STOP ∧
    (line_separator_thread [['a', '\n', 'b', '\n'], STOP]).put
        = [['a', ' ', 'b', ' '], STOP] ∧
    (normalize ['a', '\n', 'b', '\n']).length = 4 :=
  ⟨by decide, by decide, by decide,
    (normalize_spec ['a', '\n', 'b', '\n'] [STOP] (by decide) (by decide)).2.1⟩

/-- C7. Fixed-width repacking concatenates without separators: for every
sequence of data lines (C strings other than the marker) that `output_thread`
takes before the marker, as many records are printed as the concatenation of
the lines has full groups of 80 characters, the `i`-th record is characters
`80 * i .. 80 * i + 79` of that concatenation, and whenever the loop body prints
a record `output_index` is zero afterwards. -/
theorem repacking_concatenates (lines post : List Line) (hdata : STOP ∉ lines)
    (hc : ∀ l ∈ lines, IsCString l) :
    (output_thread (lines ++ STOP :: post)).1.printed.length
        = lines.flatten.length / OUTPUT_LINE_LENGTH ∧
    (∀ i, i < lines.flatten.length / OUTPUT_LINE_LENGTH →
        (output_thread (lines ++ STOP :: post)).1.printed[i]?
          = some ((lines.flatten.drop (OUTPUT_LINE_LENGTH * i)).take OUTPUT_LINE_LENGTH)) ∧
    (∀ (st : Output) (c : Char), (output_char st c).printed ≠ st.printed →
        (output_char st c).output_index = 0) := by
  have hp : (output_thread (lines ++ STOP :: post)).1.printed = records_ref lines.flatten := by
    rw [output_thread_marker lines post hdata]
    exact (outInv_output_lines lines hc).printed
  refine ⟨?_, ?_, ?_⟩
  · rw [hp, records_ref_length]
  · intro i hi
    rw [hp, records_ref_getElem? _ _ hi]
  · intro st c h
    unfold output_char at h ⊢
    split
    · rfl
    · rename_i hn
      rw [if_neg hn] at h
      exact absurd rfl h

set_option maxRecDepth 100000 in
theorem repacking_concatenates_witness :
    STOP ∉ List.replicate 11 ['a', '+', '+', 'b', '+', '+', 'c', '\n'] ∧
    (∀ l ∈ List.replicate 11 ['a', '+', '+', 'b', '+', '+', 'c', '\n'], IsCString l) ∧
    (output_thread
        (List.replicate 11 ['a', '+', '+', 'b', '+', '+', 'c', '\n'] ++ STOP :: [])).1.printed
      = [(List.replicate 10 ['a', '+', '+', 'b', '+', '+', 'c', '\n']).flatten] ∧
    (output_thread
        (List.replicate 11 ['a', '+', '+', 'b', '+', '+', 'c', '\n'] ++ STOP :: [])).1.printed.length
      = (List.replicate 11 ['a', '+', '+', 'b', '+', '+', 'c', '\n']).flatten.length
          / OUTPUT_LINE_LENGTH :=
  ⟨by decide, by decide, by decide,
    (repacking_concatenates (List.replicate 11 ['a', '+', '+', 'b', '+', '+', 'c', '\n']) []
      (by decide) (by decide)).1⟩

/-- C8. Only full records, trailing partial discarded: for every sequence of
data lines (C strings other than the marker) that `output_thread` takes before
the marker, with `L` characters in total, exactly `L / 80` records are printed,
each of exactly 80 characters; together they are the first `80 * (L / 80)`
characters of the concatenation, so the last `L % 80` characters are not
printed; these are the first `output_index = L % 80` cells of `output_line`
when the thread exits, and taking the marker prints nothing; when `L < 80`
nothing is printed at all. -/
theorem only_full_records (lines post : List Line) (hdata : STOP ∉ lines)
    (hc : ∀ l ∈ lines, IsCString l) :
    (output_thread (lines ++ STOP :: post)).1.printed.length
        = lines.flatten.length / OUTPUT_LINE_LENGTH ∧
    (∀ r ∈ (output_thread (lines ++ STOP :: post)).1.printed, r.length = OUTPUT_LINE_LENGTH) ∧
    (output_thread (lines ++ STOP :: post)).1.printed.flatten
        = lines.flatten.take
            (OUTPUT_LINE_LENGTH * (lines.flatten.length / OUTPUT_LINE_LENGTH)) ∧
    (output_thread (lines ++ STOP :: post)).1.output_index
        = lines.flatten.length % OUTPUT_LINE_LENGTH ∧
    (output_thread (lines ++ STOP :: post)).1.output_line.take
          (lines.flatten.length % OUTPUT_LINE_LENGTH)
        = lines.flatten.drop
            (OUTPUT_LINE_LENGTH * (lines.flatten.length / OUTPUT_LINE_LENGTH)) ∧
    (output_thread (lines ++ STOP :: post)).1 = (output_thread lines).1 ∧
    (output_thread (lines ++ STOP :: post)).2.2 = true ∧
    (lines.flatten.length < OUTPUT_LINE_LENGTH →
      (output_thread (lines ++ STOP :: post)).1.printed = []) := by
  have hinv := outInv_output_lines lines hc
  have he : (output_thread (lines ++ STOP :: post)).1 = output_lines lines output_start := by
    rw [output_thread_marker lines post hdata]
  have hp := hinv.printed
  refine ⟨?_, ?_, ?_, ?_, ?_, ?_, ?_, ?_⟩
  · rw [he, hp, records_ref_length]
  · intro r hr
    rw [he, hp] at hr
    exact records_ref_mem_length _ r hr
  · rw [he, hp, records_ref_flatten]
  · rw [he]; exact hinv.index
  · rw [he, ← hinv.index]; exact hinv.pending
  · rw [he, output_thread_waiting lines hdata]
  · rw [output_thread_marker lines post hdata]
  · intro hL
    rw [he, hp, records_ref, Nat.div_eq_of_lt hL]
    rfl

theorem only_full_records_witness :
    STOP ∉ sample_data ∧ (∀ l ∈ sample_data, IsCString l) ∧
    sample_data.flatten.length < OUTPUT_LINE_LENGTH ∧
    (output_thread (sample_data ++ STOP :: [])).1.printed = [] :=
  ⟨by decide, by decide, by decide,
    (only_full_records sample_data [] (by decide) (by decide)).2.2.2.2.2.2.2 (by decide)⟩

theorem input_thread_one_marker (source : List Line) (hstop : ∀ l ∈ source, l ≠ STOP) :
    (input_thread source).count STOP = 1 ∧ (input_thread source).getLast? = some STOP := by
  have h1 : STOP ∉ source.takeWhile (fun l => decide (l ≠ STOP_LINE)) :=
    fun hm => hstop _ (List.takeWhile_subset _ hm) rfl
  rw [input_thread_eq]
  refine ⟨?_, List.getLast?_concat _⟩
  rw [List.count_append, List.count_eq_zero_of_not_mem h1, List.count_singleton_self]

/-- C9, evaluated where it fails.  When the input ends with the four characters
`STOP` and no newline, `fgets` delivers the line `"STOP"`; it is not the stop
token `"STOP\n"`, so `input_thread` puts it into `buffer1` as a data item and
then puts the marker: two items equal to the marker, the first of them not
last. -/
theorem input_thread_bare_stop :
    source_lines 4 STOP = [STOP] ∧
    input_thread [STOP] = [STOP, STOP] ∧
    (input_thread [STOP]).count STOP = 2 ∧
    (line_separator_thread (input_thread [STOP])).unread = [STOP] := by
  refine ⟨by decide, by decide, by decide, by decide⟩

/-- C10. End of input by stop token or by exhaustion: for every sequence of
source lines, the items `input_thread` puts are the lines before the first line
equal to `"STOP\n"` (all lines when there is none), unmodified and in order,
followed by one marker `"STOP"`; the stop line and the lines after it are not
put. -/
theorem input_thread_spec (source pre post : List Line) (hpre : STOP_LINE ∉ pre) :
    input_thread source = source.takeWhile (fun l => decide (l ≠ STOP_LINE)) ++ [STOP] ∧
    input_thread (pre ++ STOP_LINE :: post) = pre ++ [STOP] ∧
    input_thread pre = pre ++ [STOP] := by
  have hall : ∀ l ∈ pre, (fun l => decide (l ≠ STOP_LINE)) l = true := by
    intro l hl
    simp only [ne_eq, decide_not, Bool.not_eq_true', decide_eq_false_iff_not]
    exact fun e => hpre (e ▸ hl)
  refine ⟨input_thread_eq source, ?_, ?_⟩
  · rw [input_thread_eq, List.takeWhile_append_of_pos hall]
    simp
  · have := input_thread_eq (pre ++ [])
    rw [List.takeWhile_append_of_pos hall] at this
    simpa using this

theorem input_thread_spec_witness :
    STOP_LINE ∉ sample_data.take 2 ∧
    input_thread (sample_data.take 2 ++ STOP_LINE :: sample_data) = sample_data.take 2 ++ [STOP] ∧
    input_thread (sample_data.take 2) = sample_data.take 2 ++ [STOP] :=
  ⟨by decide, (input_thread_spec [] (sample_data.take 2) sample_data (by decide)).2⟩

/-! ## Eighty characters in, one record out -/

theorem noPlusPair_cons_cons (c d : Char) (rest : Line) :
    NoPlusPair (c :: d :: rest) ↔ ¬(c = '+' ∧ d = '+') ∧ NoPlusPair (d :: rest) := by
  simp only [NoPlusPair, no_plus_pair, Bool.and_eq_true, Bool.not_eq_true',
    decide_eq_false_iff_not]

theorem collapse_ref_of_noPlusPair (ln : Line) (h : NoPlusPair ln) : collapse_ref ln = ln := by
  induction ln using collapse_ref.induct with
  | case1 => rfl
  | case2 c => rfl
  | case3 c d rest hp ih =>
    rw [noPlusPair_cons_cons] at h
    exact absurd hp h.1
  | case4 c d rest hp ih =>
    rw [noPlusPair_cons_cons] at h
    rw [collapse_ref, if_neg hp, ih h.2]

theorem normalize_ref_noPlusPair (ln : Line) (h : NoPlusPair ln) :
    NoPlusPair (normalize_ref ln) := by
  induction ln using no_plus_pair.induct with
  | case1 => exact h
  | case2 c => simp [NoPlusPair, normalize_ref, no_plus_pair]
  | case3 c d rest ih =>
    rw [noPlusPair_cons_cons] at h
    rw [normalize_ref_cons, normalize_ref_cons, noPlusPair_cons_cons]
    refine ⟨?_, by rw [← normalize_ref_cons]; exact ih h.2⟩
    rintro ⟨h1, h2⟩
    apply h.1
    constructor
    · by_cases ha : c = '\n'
      · rw [if_pos ha] at h1; exact absurd h1 (by decide)
      · rw [if_neg ha] at h1; exact h1
    · by_cases hb : d = '\n'
      · rw [if_pos hb] at h2; exact absurd h2 (by decide)
      · rw [if_neg hb] at h2; exact h2

theorem transformed_length_of_noPlusPair (data : List Line)
    (hsrc : ∀ l ∈ data, IsCString l ∧ (l.length : Int) < MAX_LINE_LENGTH)
    (hp : ∀ l ∈ data, NoPlusPair l) :
    (data.map (fun l => collapse (normalize l))).flatten.length = data.flatten.length := by
  induction data with
  | nil => rfl
  | cons l ls ih =>
    have hl := hsrc l (by simp)
    have e : collapse (normalize l) = normalize_ref l := by
      rw [normalize_eq_ref l hl.1, collapse_eq_ref _ (normalize_ref_isCString l hl.1)
        (by rw [normalize_ref_length]; exact hl.2),
        collapse_ref_of_noPlusPair _ (normalize_ref_noPlusPair l (hp l (by simp)))]
    simp only [List.map_cons, List.flatten_cons, List.length_append, e, normalize_ref_length]
    rw [ih (fun m hm => hsrc m (by simp [hm])) (fun m hm => hp m (by simp [hm]))]

theorem records_ref_of_length_eq (s : List Char) (h : s.length = OUTPUT_LINE_LENGTH) :
    records_ref s = [s] := by
  unfold records_ref
  rw [h, Nat.div_self (by decide)]
  show [(s.drop (OUTPUT_LINE_LENGTH * 0)).take OUTPUT_LINE_LENGTH] = [s]
  rw [Nat.mul_zero, List.drop_zero, List.take_of_length_le (by omega)]

set_option maxRecDepth 100000 in
/-- C11, where it fails.  Ten source lines of eight characters each sum to
exactly 80 characters and none is the marker, yet each holds two `++` pairs, so
only 60 characters reach `output_thread` and no record is printed. -/
theorem scenario_80_collapsed_short :
    (plus_source.map List.length).sum = 80 ∧
    (∀ l ∈ plus_source, l ≠ STOP ∧ l ≠ STOP_LINE) ∧
    (∀ l ∈ plus_source, IsCString l ∧ (l.length : Int) < MAX_LINE_LENGTH) ∧
    pipeline plus_source = [] ∧
    ¬ ((pipeline plus_source).length = 1) := by
  refine ⟨by decide, by decide, by decide, by decide, by decide⟩

/-- C11, amended.  For every sequence of source lines (C strings shorter than
`MAX_LINE_LENGTH`, none the bare marker) whose lines before the stop, normalised
and collapsed, sum to exactly 80 characters, the pipeline prints exactly one
record, of exactly 80 characters, namely their concatenation, and nothing more
when the marker arrives; this is the case in particular when the lines before
the stop sum to exactly 80 characters and none of them holds two adjacent `+`. -/
theorem scenario_80_one_record (source : List Line) (hstop : ∀ l ∈ source, l ≠ STOP)
    (hsrc : ∀ l ∈ source, IsCString l ∧ (l.length : Int) < MAX_LINE_LENGTH) :
    ((transformed source).flatten.length = OUTPUT_LINE_LENGTH →
      pipeline source = [(transformed source).flatten] ∧
      (pipeline source).length = 1 ∧
      ∀ r ∈ pipeline source, r.length = OUTPUT_LINE_LENGTH) ∧
    ((∀ l ∈ source.takeWhile (fun l => decide (l ≠ STOP_LINE)), NoPlusPair l) →
      (source.takeWhile (fun l => decide (l ≠ STOP_LINE))).flatten.length
        = OUTPUT_LINE_LENGTH →
      (pipeline source).length = 1 ∧
      ∀ r ∈ pipeline source, r.length = OUTPUT_LINE_LENGTH) := by
  have key : (transformed source).flatten.length = OUTPUT_LINE_LENGTH →
      pipeline source = [(transformed source).flatten] ∧
      (pipeline source).length = 1 ∧
      ∀ r ∈ pipeline source, r.length = OUTPUT_LINE_LENGTH := by
    intro h80
    have e : pipeline source = [(transformed source).flatten] := by
      rw [pipeline_eq source hstop hsrc, records_ref_of_length_eq _ h80]
    refine ⟨e, by rw [e]; rfl, ?_⟩
    intro r hr
    rw [e, List.mem_singleton] at hr
    rw [hr, h80]
  refine ⟨key, ?_⟩
  intro hp hlen
  have hsub : ∀ l ∈ source.takeWhile (fun l => decide (l ≠ STOP_LINE)), l ∈ source :=
    fun l hl => List.takeWhile_subset _ hl
  have := transformed_length_of_noPlusPair _ (fun l hl => hsrc l (hsub l hl)) hp
  exact (key (by unfold transformed; rw [this, hlen])).2

set_option maxRecDepth 100000 in
theorem scenario_80_one_record_witness :
    (∀ l ∈ plain_source, l ≠ STOP) ∧
    (∀ l ∈ plain_source, IsCString l ∧ (l.length : Int) < MAX_LINE_LENGTH) ∧
    (∀ l ∈ plain_source.takeWhile (fun l => decide (l ≠ STOP_LINE)), NoPlusPair l) ∧
    (plain_source.takeWhile (fun l => decide (l ≠ STOP_LINE))).flatten.length
      = OUTPUT_LINE_LENGTH ∧
    (pipeline plain_source).length = 1 ∧
    ∀ r ∈ pipeline plain_source, r.length = OUTPUT_LINE_LENGTH :=
  ⟨by decide, by decide, by decide, by decide,
    (scenario_80_one_record plain_source (by decide) (by decide)).2 (by decide) (by decide)⟩

/-! ## Cursors and guards of the ring buffer -/

theorem cursor_run (calls : List Call) (b b1 : Buffer) (r : List Line) (hb : Bounded b)
    (hc : b.in_ = (b.out + b.count) % MAX_LINES)
    (h : run_calls b calls = some (b1, r)) : b1.in_ = (b1.out + b1.count) % MAX_LINES := by
  induction calls generalizing b r with
  | nil =>
    simp [run_calls] at h
    rw [← h.1]; exact hc
  | cons c cs ih =>
    obtain ⟨h1, h2, h3, h4, h5, h6⟩ := hb
    cases c with
    | add l =>
      simp only [run_calls] at h
      cases hadd : add_to_buffer b l with
      | none => simp [hadd] at h
      | some b2 =>
        simp only [hadd] at h
        refine ih b2 r (bounded_add b b2 l ⟨h1, h2, h3, h4, h5, h6⟩ hadd) ?_ h
        unfold add_to_buffer at hadd
        split at hadd
        · simp at hadd
        · simp only [Option.some.injEq] at hadd
          subst hadd
          show Int.tmod (b.in_ + 1) MAX_LINES = (b.out + (b.count + 1)) % MAX_LINES
          rw [Int.tmod_eq_emod (by omega) (by simp [MAX_LINES])]
          simp only [MAX_LINES] at *
          omega
    | remove =>
      simp only [run_calls] at h
      cases hrem : remove_from_buffer b with
      | none => simp [hrem] at h
      | some p =>
        obtain ⟨b2, l⟩ := p
        simp only [hrem] at h
        cases hrec : run_calls b2 cs with
        | none => simp [hrec] at h
        | some p2 =>
          obtain ⟨b3, r3⟩ := p2
          simp only [hrec, Option.some.injEq, Prod.mk.injEq] at h
          obtain ⟨rfl, -⟩ := h
          refine ih b2 r3 (bounded_remove b b2 l ⟨h1, h2, h3, h4, h5, h6⟩ hrem) ?_ hrec
          unfold remove_from_buffer at hrem
          split at hrem
          · simp at hrem
          · rename_i hne
            simp only [Option.some.injEq, Prod.mk.injEq] at hrem
            obtain ⟨hrem, -⟩ := hrem
            subst hrem
            show b.in_ = (Int.tmod (b.out + 1) MAX_LINES + (b.count - 1)) % MAX_LINES
            rw [Int.tmod_eq_emod (by omega) (by simp [MAX_LINES]), hc]
            simp only [MAX_LINES] at *
            omega

/-- C13. Backpressure guard: in every buffer state reached from
`initialize_buffer`, `add_to_buffer` is taken exactly when `count < MAX_LINES`
and `remove_from_buffer` exactly when `count > 0`; a full buffer takes no add
and takes one again after a single remove; an empty buffer yields no item and
yields one after a single add. -/
theorem backpressure_guard (b0 : Buffer) (calls : List Call) (b : Buffer)
    (removed : List Line) (ln : Line)
    (hrun : run_calls (initialize_buffer b0) calls = some (b, removed)) :
    ((add_to_buffer b ln).isSome ↔ b.count < MAX_LINES) ∧
    ((remove_from_buffer b).isSome ↔ 0 < b.count) ∧
    (b.count = MAX_LINES →
      add_to_buffer b ln = none ∧
      ∃ b1 l, remove_from_buffer b = some (b1, l) ∧ (add_to_buffer b1 ln).isSome) ∧
    (b.count = 0 →
      remove_from_buffer b = none ∧
      ∃ b1, add_to_buffer b ln = some b1 ∧ (remove_from_buffer b1).isSome) := by
  obtain ⟨h1, h2, h3, h4, h5, h6⟩ :=
    bounded_run calls (initialize_buffer b0) b removed (bounded_init_buffer b0) hrun
  refine ⟨?_, ?_, ?_, ?_⟩
  · unfold add_to_buffer
    by_cases hf : b.count = MAX_LINES
    · simp [hf]
    · simp only [if_neg hf, Option.isSome_some, true_iff]
      omega
  · unfold remove_from_buffer
    by_cases he : b.count = 0
    · simp [he]
    · simp only [if_neg he, Option.isSome_some, true_iff]
      omega
  · intro hf
    have hne : b.count ≠ 0 := by rw [hf]; decide
    refine ⟨by simp [add_to_buffer, hf], _, _,
      by simp only [remove_from_buffer, if_neg hne]; rfl, ?_⟩
    have : b.count - 1 ≠ MAX_LINES := by omega
    simp [add_to_buffer, this]
  · intro he
    have hne : b.count ≠ MAX_LINES := by rw [he]; decide
    refine ⟨by simp [remove_from_buffer, he], _,
      by simp only [add_to_buffer, if_neg hne]; rfl, ?_⟩
    have : b.count + 1 ≠ 0 := by omega
    simp [remove_from_buffer, this]

theorem backpressure_guard_witness :
    ∃ b removed, run_calls (initialize_buffer raw_buffer) filling_calls = some (b, removed) ∧
      b.count = MAX_LINES ∧
      add_to_buffer b ['x'] = none ∧
      ((add_to_buffer b ['x']).isSome ↔ b.count < MAX_LINES) :=
  ⟨_, _, rfl, rfl, rfl, (backpressure_guard raw_buffer filling_calls _ _ ['x'] rfl).1⟩

/-- C15. Ring-cursor invariant: in every buffer state reached from
`initialize_buffer` by calls none of which has to wait,
`in = (out + count) % MAX_LINES`; hence when an add is taken the row `in` it
writes is none of the rows `out`, ..., `out + count - 1` of the unread lines;
and when the added lines are C strings shorter than `MAX_LINE_LENGTH`, those
rows hold exactly the lines added and not yet removed, and an add leaves them
as they are and appends its line. -/
theorem ring_cursor_invariant (b0 : Buffer) (calls : List Call) (b : Buffer)
    (removed : List Line)
    (hrun : run_calls (initialize_buffer b0) calls = some (b, removed)) :
    b.in_ = Int.tmod (b.out + b.count) MAX_LINES ∧
    (b.count ≠ MAX_LINES → ∀ k : Int, 0 ≤ k → k < b.count →
      Int.tmod (b.out + k) MAX_LINES ≠ b.in_) ∧
    ((∀ l ∈ added calls, IsCString l ∧ (l.length : Int) < MAX_LINE_LENGTH) →
      removed ++ contents b = added calls ∧
      ∀ (l : Line) (b1 : Buffer), IsCString l → (l.length : Int) < MAX_LINE_LENGTH →
        add_to_buffer b l = some b1 → contents b1 = contents b ++ [l]) := by
  obtain ⟨h1, h2, h3, h4, h5, h6⟩ :=
    bounded_run calls (initialize_buffer b0) b removed (bounded_init_buffer b0) hrun
  have hc := cursor_run calls (initialize_buffer b0) b removed (bounded_init_buffer b0)
    (by simp [initialize_buffer]) hrun
  refine ⟨?_, ?_, ?_⟩
  · rw [Int.tmod_eq_emod (by omega) (by simp [MAX_LINES])]
    exact hc
  · intro hne k hk0 hk1
    rw [Int.tmod_eq_emod (by omega) (by simp [MAX_LINES]), hc]
    simp only [MAX_LINES] at *
    omega
  · intro hlines
    rcases run_calls_sim calls (initialize_buffer b0) [] (inv_init_buffer b0) hlines with
      ⟨b2, q, r, hr1, hr2, hinv⟩ | ⟨hn, -⟩
    · rw [hrun] at hr1
      simp only [Option.some.injEq, Prod.mk.injEq] at hr1
      obtain ⟨rfl, rfl⟩ := hr1
      have hq := queue_calls_spec calls [] q removed hr2
      rw [contents_eq_of_inv b q hinv]
      refine ⟨by simpa using hq.1, ?_⟩
      intro l b1 hcl hll hadd
      have hfull : b.count ≠ MAX_LINES := by
        intro hf
        simp [add_to_buffer, hf] at hadd
      obtain ⟨b3, hb3, hinv3⟩ := inv_add b q l hinv hcl hll hfull
      rw [hadd] at hb3
      simp only [Option.some.injEq] at hb3
      subst hb3
      exact contents_eq_of_inv _ _ hinv3
    · rw [hrun] at hn; simp at hn

theorem ring_cursor_invariant_witness :
    ∃ b removed, run_calls (initialize_buffer raw_buffer) sample_calls = some (b, removed) ∧
      (b.in_ = 3 ∧ b.out = 2 ∧ b.count = 1) ∧
      b.in_ = Int.tmod (b.out + b.count) MAX_LINES :=
  ⟨_, _, rfl, ⟨rfl, rfl, rfl⟩, (ring_cursor_invariant raw_buffer sample_calls _ _ rfl).1⟩

/-! ## More on pattern collapsing -/

/-- C16. Transformations never manufacture the marker: for every line (a C
string shorter than `MAX_LINE_LENGTH`) different from `"STOP"`, the normalised
line and the collapsed line are different from `"STOP"`, so what
`line_separator_thread` and `plus_sign_thread` forward for it is not the
marker. -/
theorem never_manufacture_marker (ln : Line) (rest : List Line) (hc : IsCString ln)
    (hlen : (ln.length : Int) < MAX_LINE_LENGTH) (hne : ln ≠ STOP) :
    normalize ln ≠ STOP ∧
    collapse ln ≠ STOP ∧
    (line_separator_thread (ln :: rest)).put.head? = some (normalize ln) ∧
    (line_separator_thread (ln :: rest)).put.head? ≠ some STOP ∧
    (plus_sign_thread (ln :: rest)).put.head? = some (collapse ln) ∧
    (plus_sign_thread (ln :: rest)).put.head? ≠ some STOP := by
  have h1 := normalize_ne_stop ln hc hne
  have h2 := collapse_ne_stop ln hc hlen hne
  have e1 : (line_separator_thread (ln :: rest)).put.head? = some (normalize ln) := by
    simp only [line_separator_thread, if_neg hne, List.head?_cons]
  have e2 : (plus_sign_thread (ln :: rest)).put.head? = some (collapse ln) := by
    simp only [plus_sign_thread, if_neg hne, List.head?_cons]
  refine ⟨h1, h2, e1, ?_, e2, ?_⟩
  · rw [e1]; intro h; exact h1 (Option.some.inj h)
  · rw [e2]; intro h; exact h2 (Option.some.inj h)

theorem never_manufacture_marker_witness :
    IsCString STOP_LINE ∧ STOP_LINE ≠ STOP ∧
    normalize STOP_LINE = ['S', 'T', 'O', 'P', ' '] ∧
    normalize STOP_LINE ≠ STOP ∧ collapse STOP_LINE ≠ STOP :=
  ⟨by decide, by decide, by decide,
    (never_manufacture_marker STOP_LINE [] (by decide) (by decide) (by decide)).1,
    (never_manufacture_marker STOP_LINE [] (by decide) (by decide) (by decide)).2.1⟩

theorem noPlusPair_cons_of_ne (c : Char) (l : Line) (hc : c ≠ '+') (h : NoPlusPair l) :
    NoPlusPair (c :: l) := by
  cases l with
  | nil => rfl
  | cons d r =>
    rw [noPlusPair_cons_cons]
    exact ⟨fun hp => hc hp.1, h⟩

theorem collapse_ref_noPlusPair (ln : Line) : NoPlusPair (collapse_ref ln) := by
  induction ln using collapse_ref.induct with
  | case1 => rfl
  | case2 c => rfl
  | case3 c d rest hp ih =>
    rw [collapse_ref, if_pos hp]
    exact noPlusPair_cons_of_ne _ _ (by decide) ih
  | case4 c d rest hp ih =>
    rw [collapse_ref, if_neg hp]
    by_cases hcp : c = '+'
    · have hd : d ≠ '+' := fun e => hp ⟨hcp, e⟩
      have e : collapse_ref (d :: rest) = d :: collapse_ref rest :=
        collapse_ref_other d rest (fun h => hd h.1)
      rw [e] at ih ⊢
      rw [noPlusPair_cons_cons]
      exact ⟨fun h => hd h.2, ih⟩
    · exact noPlusPair_cons_of_ne _ _ hcp ih

theorem noPlusPair_index (l : Line) (h : NoPlusPair l) (i : Nat) :
    ¬(l[i]? = some '+' ∧ l[i + 1]? = some '+') := by
  induction l using no_plus_pair.induct generalizing i with
  | case1 => simp
  | case2 c => simp
  | case3 c d rest ih =>
    rw [noPlusPair_cons_cons] at h
    cases i with
    | zero =>
      simp only [List.getElem?_cons_zero, List.getElem?_cons_succ, Option.some.injEq]
      exact h.1
    | succ k =>
      have := ih h.2 k
      simpa using this

/-- C17. Pattern collapsing is idempotent: for every line (a C string shorter
than `MAX_LINE_LENGTH`) the collapsed line has no two adjacent `+`, and
collapsing it again returns it unchanged. -/
theorem collapse_idempotent (ln : Line) (hc : IsCString ln)
    (hlen : (ln.length : Int) < MAX_LINE_LENGTH) :
    NoPlusPair (collapse ln) ∧
    (∀ i : Nat, ¬((collapse ln)[i]? = some '+' ∧ (collapse ln)[i + 1]? = some '+')) ∧
    collapse (collapse ln) = collapse ln := by
  have e := collapse_eq_ref ln hc hlen
  have hn : NoPlusPair (collapse ln) := by rw [e]; exact collapse_ref_noPlusPair ln
  refine ⟨hn, noPlusPair_index _ hn, ?_⟩
  have hc2 : IsCString (collapse ln) := by rw [e]; exact collapse_ref_isCString ln hc
  have hl2 : ((collapse ln).length : Int) < MAX_LINE_LENGTH := by
    have := collapse_ref_length_le ln
    rw [e]; omega
  rw [collapse_eq_ref _ hc2 hl2, collapse_ref_of_noPlusPair _ hn]

theorem collapse_idempotent_witness :
    IsCString ['+', '+', '+', 'a', '+', '+', '+', '+'] ∧
    collapse ['+', '+', '+', 'a', '+', '+', '+', '+'] = ['^', '+', 'a', '^', '^'] ∧
    collapse (collapse ['+', '+', '+', 'a', '+', '+', '+', '+'])
      = collapse ['+', '+', '+', 'a', '+', '+', '+', '+'] :=
  ⟨by decide, by decide,
    (collapse_idempotent ['+', '+', '+', 'a', '+', '+', '+', '+'] (by decide)
      (by decide)).2.2⟩

theorem collapse_ref_length_pairs (ln : Line) :
    (collapse_ref ln).length + pairs_replaced ln = ln.length ∧
      2 * pairs_replaced ln ≤ ln.length := by
  induction ln using collapse_ref.induct with
  | case1 => simp [collapse_ref, pairs_replaced]
  | case2 c => simp [collapse_ref, pairs_replaced]
  | case3 c d rest hp ih =>
    rw [collapse_ref, if_pos hp, pairs_replaced, if_pos hp]
    simp only [List.length_cons]; omega
  | case4 c d rest hp ih =>
    rw [collapse_ref, if_neg hp, pairs_replaced, if_neg hp]
    simp only [List.length_cons] at ih ⊢; omega

theorem collapse_trace_bound (ln : Line) (fuel i j : Nat)
    (hji : j ≤ i) (hi : i ≤ ln.length) :
    ∀ p ∈ collapse_trace ln fuel i j, p.2 ≤ p.1 ∧ p.1 ≤ ln.length := by
  induction fuel generalizing i j with
  | zero => intro p hp; simp [collapse_trace] at hp
  | succ n ih =>
    intro p hp
    rw [collapse_trace] at hp
    by_cases hnul : ln.getD i NUL = NUL
    · rw [if_pos hnul, List.mem_singleton] at hp
      subst hp; exact ⟨hji, hi⟩
    · rw [if_neg hnul] at hp
      have hlt : i < ln.length := by
        by_contra hge
        exact hnul (getD_nul_of_le ln i (by omega))
      by_cases hpair : ln.getD i NUL = '+' ∧ ln.getD (i + 1) NUL = '+'
      · rw [if_pos hpair, List.mem_cons] at hp
        have hlt2 : i + 1 < ln.length := by
          by_contra hge
          have := getD_nul_of_le ln (i + 1) (by omega)
          rw [this] at hpair
          exact absurd hpair.2 (by decide)
        rcases hp with rfl | hp
        · exact ⟨hji, hi⟩
        · exact ih (i + 1 + 1) (j + 1) (by omega) (by omega) p hp
      · rw [if_neg hpair, List.mem_cons] at hp
        rcases hp with rfl | hp
        · exact ⟨hji, hi⟩
        · exact ih (i + 1) (j + 1) (by omega) (by omega) p hp

theorem getLast?_cons_of_ne {α : Type} (a : α) (l : List α) (h : l ≠ []) :
    (a :: l).getLast? = l.getLast? := by
  cases l with
  | nil => exact absurd rfl h
  | cons b r => exact List.getLast?_cons_cons

theorem collapse_trace_last (ln : Line) (fuel i j : Nat) (arr : List Char)
    (hf : 0 < fuel) (hstop : ln.length < i + fuel) :
    ((collapse_trace ln fuel i j).getLast?).map Prod.snd
      = some (collapse_loop ln fuel i j arr).2 := by
  induction fuel generalizing i j arr with
  | zero => omega
  | succ n ih =>
    rw [collapse_trace, collapse_loop]
    by_cases hnul : ln.getD i NUL = NUL
    · rw [if_pos hnul, if_pos hnul]; rfl
    · rw [if_neg hnul, if_neg hnul]
      have hlt : i < ln.length := by
        by_contra hge
        exact hnul (getD_nul_of_le ln i (by omega))
      have hn : 0 < n := by omega
      by_cases hpair : ln.getD i NUL = '+' ∧ ln.getD (i + 1) NUL = '+'
      · rw [if_pos hpair, if_pos hpair]
        have hlt2 : i + 1 < ln.length := by
          by_contra hge
          have := getD_nul_of_le ln (i + 1) (by omega)
          rw [this] at hpair
          exact absurd hpair.2 (by decide)
        have hrec := ih (i + 1 + 1) (j + 1) (arr.set j '^') hn (by omega)
        have hne : collapse_trace ln n (i + 1 + 1) (j + 1) ≠ [] := by
          intro e; rw [e] at hrec; simp at hrec
        rw [getLast?_cons_of_ne _ _ hne]
        exact hrec
      · rw [if_neg hpair, if_neg hpair]
        have hrec := ih (i + 1) (j + 1) (arr.set j (ln.getD i NUL)) hn (by omega)
        have hne : collapse_trace ln n (i + 1) (j + 1) ≠ [] := by
          intro e; rw [e] at hrec; simp at hrec
        rw [getLast?_cons_of_ne _ _ hne]
        exact hrec

/-- C19. Collapsing never lengthens a line: for every line of length `n` (a C
string shorter than `MAX_LINE_LENGTH`) the collapsed line has length `n` minus
the number of `++` pairs replaced, hence at least `(n + 1) / 2` and at most
`n`; at every test of the loop condition the write index `j` is at most the
read index `i`, which is at most `n`; the final `j` is the length of the
result, so the result and its terminator fit in `processed_line`. -/
theorem collapse_never_lengthens (ln : Line) (hc : IsCString ln)
    (hlen : (ln.length : Int) < MAX_LINE_LENGTH) :
    (collapse ln).length + pairs_replaced ln = ln.length ∧
    (ln.length + 1) / 2 ≤ (collapse ln).length ∧
    (collapse ln).length ≤ ln.length ∧
    (∀ p ∈ collapse_trace ln (ln.length + 1) 0 0, p.2 ≤ p.1 ∧ p.1 ≤ ln.length) ∧
    ((collapse_trace ln (ln.length + 1) 0 0).getLast?).map Prod.snd
      = some (collapse ln).length ∧
    ((collapse ln).length : Int) < MAX_LINE_LENGTH := by
  have e := collapse_eq_ref ln hc hlen
  obtain ⟨h1, h2⟩ := collapse_ref_length_pairs ln
  have hspec := collapse_loop_spec ln hc (ln.length + 1) 0 0 (fresh_array MAX_LINE_LENGTH.toNat)
    (by omega) (by omega)
    (by rw [fresh_array, List.length_replicate]; simp only [MAX_LINE_LENGTH] at *; omega)
  have hj : (collapse_loop ln (ln.length + 1) 0 0 (fresh_array MAX_LINE_LENGTH.toNat)).2
      = (collapse ln).length := by
    have h := congrArg List.length hspec.1
    rw [List.length_take, Nat.min_eq_left (by omega)] at h
    rw [h, e]; simp
  refine ⟨by rw [e]; exact h1, by rw [e]; omega, by rw [e]; omega,
    collapse_trace_bound ln _ 0 0 (by omega) (by omega), ?_, by rw [e]; omega⟩
  rw [collapse_trace_last ln _ 0 0 (fresh_array MAX_LINE_LENGTH.toNat) (by omega) (by omega),
    hj]

theorem collapse_never_lengthens_witness :
    IsCString ['+', '+', '+', 'a', '+', '+', '+', '+'] ∧
    pairs_replaced ['+', '+', '+', 'a', '+', '+', '+', '+'] = 3 ∧
    collapse_trace ['+', '+', '+', 'a', '+', '+', '+', '+'] 9 0 0
      = [(0, 0), (2, 1), (3, 2), (4, 3), (6, 4), (8, 5)] ∧
    (collapse ['+', '+', '+', 'a', '+', '+', '+', '+']).length
        + pairs_replaced ['+', '+', '+', 'a', '+', '+', '+', '+'] = 8 :=
  ⟨by decide, by decide, by decide,
    (collapse_never_lengthens ['+', '+', '+', 'a', '+', '+', '+', '+'] (by decide)
      (by decide)).1⟩

/-! ## No newline in a record -/

theorem mem_input_thread (source : List Line) (x : Line) (h : x ∈ input_thread source) :
    x = STOP ∨ x ∈ source := by
  rw [input_thread_eq, List.mem_append, List.mem_singleton] at h
  rcases h with h | h
  · exact Or.inr (List.takeWhile_subset _ h)
  · exact Or.inl h

theorem mem_line_separator_put (up : List Line) (x : Line)
    (h : x ∈ (line_separator_thread up).put) :
    x = STOP ∨ ∃ l ∈ up, l ≠ STOP ∧ x = normalize l := by
  induction up with
  | nil => simp [line_separator_thread] at h
  | cons l ls ih =>
    rw [line_separator_thread] at h
    by_cases hl : l = STOP
    · rw [if_pos hl, List.mem_singleton] at h
      exact Or.inl h
    · rw [if_neg hl, List.mem_cons] at h
      rcases h with h | h
      · exact Or.inr ⟨l, by simp, hl, h⟩
      · rcases ih h with h1 | ⟨m, hm, hm2, hm3⟩
        · exact Or.inl h1
        · exact Or.inr ⟨m, by simp [hm], hm2, hm3⟩

theorem mem_plus_sign_put (up : List Line) (x : Line) (h : x ∈ (plus_sign_thread up).put) :
    x = STOP ∨ ∃ l ∈ up, l ≠ STOP ∧ x = collapse l := by
  induction up with
  | nil => simp [plus_sign_thread] at h
  | cons l ls ih =>
    rw [plus_sign_thread] at h
    by_cases hl : l = STOP
    · rw [if_pos hl, List.mem_singleton] at h
      exact Or.inl h
    · rw [if_neg hl, List.mem_cons] at h
      rcases h with h | h
      · exact Or.inr ⟨l, by simp, hl, h⟩
      · rcases ih h with h1 | ⟨m, hm, hm2, hm3⟩
        · exact Or.inl h1
        · exact Or.inr ⟨m, by simp [hm], hm2, hm3⟩

theorem output_loop_taken (up : List Line) (st : Output) :
    ∃ pre : List Line, (∀ l ∈ pre, l ∈ up) ∧ STOP ∉ pre ∧
      (output_loop up st).1 = output_lines pre st := by
  induction up generalizing st with
  | nil => exact ⟨[], by simp, by simp, rfl⟩
  | cons l ls ih =>
    rw [output_loop]
    by_cases hl : l = STOP
    · rw [if_pos hl]
      exact ⟨[], by simp, by simp, rfl⟩
    · rw [if_neg hl]
      obtain ⟨pre, h1, h2, h3⟩ := ih (output_chars l (l.length + 1) 0 st)
      refine ⟨l :: pre, ?_, ?_, ?_⟩
      · intro m hm
        rw [List.mem_cons] at hm
        rcases hm with rfl | hm
        · simp
        · simp [h1 m hm]
      · intro hm
        rw [List.mem_cons] at hm
        rcases hm with hm | hm
        · exact hl hm.symm
        · exact h2 hm
      · rw [h3]; rfl

theorem mem_normalize_ref_ne_newline (ln : Line) : '\n' ∉ normalize_ref ln := by
  unfold normalize_ref
  intro h
  rw [List.mem_map] at h
  obtain ⟨c, -, hc⟩ := h
  by_cases hn : c = '\n'
  · rw [if_pos hn] at hc; exact absurd hc (by decide)
  · rw [if_neg hn] at hc; exact hn hc

theorem mem_collapse_ref (ln : Line) (c : Char) (h : c ∈ collapse_ref ln) :
    c = '^' ∨ c ∈ ln := by
  induction ln using collapse_ref.induct with
  | case1 => simp [collapse_ref] at h
  | case2 d => right; simpa [collapse_ref] using h
  | case3 a b rest hp ih =>
    rw [collapse_ref, if_pos hp, List.mem_cons] at h
    rcases h with h | h
    · exact Or.inl h
    · rcases ih h with h1 | h1
      · exact Or.inl h1
      · exact Or.inr (by simp [h1])
  | case4 a b rest hp ih =>
    rw [collapse_ref, if_neg hp, List.mem_cons] at h
    rcases h with h | h
    · exact Or.inr (by simp [h])
    · rcases ih h with h1 | h1
      · exact Or.inl h1
      · exact Or.inr (List.mem_cons_of_mem _ h1)

theorem mem_records_ref (s : List Char) (r : Line) (c : Char) (hr : r ∈ records_ref s)
    (hc : c ∈ r) : c ∈ s := by
  unfold records_ref at hr
  rw [List.mem_map] at hr
  obtain ⟨i, -, rfl⟩ := hr
  exact List.mem_of_mem_drop (List.mem_of_mem_take hc)

/-- C18. No newline reaches a record: for every sequence of source lines (C
strings shorter than `MAX_LINE_LENGTH`, as `fgets` delivers them), every record
the pipeline prints is free of newline characters and has exactly 80
characters. -/
theorem no_newline_in_record (source : List Line)
    (hsrc : ∀ l ∈ source, IsCString l ∧ (l.length : Int) < MAX_LINE_LENGTH) :
    ∀ r ∈ pipeline source, '\n' ∉ r ∧ r.length = OUTPUT_LINE_LENGTH := by
  have hstopc : IsCString STOP ∧ (STOP.length : Int) < MAX_LINE_LENGTH := by decide
  have h1 : ∀ x ∈ input_thread source, IsCString x ∧ (x.length : Int) < MAX_LINE_LENGTH := by
    intro x hx
    rcases mem_input_thread source x hx with rfl | h
    · exact hstopc
    · exact hsrc x h
  have h2 : ∀ x ∈ (line_separator_thread (input_thread source)).put,
      IsCString x ∧ (x.length : Int) < MAX_LINE_LENGTH ∧ '\n' ∉ x := by
    intro x hx
    rcases mem_line_separator_put _ x hx with rfl | ⟨l, hl, -, rfl⟩
    · exact ⟨hstopc.1, hstopc.2, by decide⟩
    · rw [normalize_eq_ref l (h1 l hl).1, normalize_ref_length]
      exact ⟨normalize_ref_isCString l (h1 l hl).1, (h1 l hl).2,
        mem_normalize_ref_ne_newline l⟩
  have h3 : ∀ y ∈ (plus_sign_thread (line_separator_thread (input_thread source)).put).put,
      IsCString y ∧ '\n' ∉ y := by
    intro y hy
    rcases mem_plus_sign_put _ y hy with rfl | ⟨x, hx, -, rfl⟩
    · exact ⟨hstopc.1, by decide⟩
    · obtain ⟨hx1, hx2, hx3⟩ := h2 x hx
      rw [collapse_eq_ref x hx1 hx2]
      refine ⟨collapse_ref_isCString x hx1, ?_⟩
      intro hm
      rcases mem_collapse_ref x _ hm with h | h
      · exact absurd h (by decide)
      · exact hx3 h
  obtain ⟨pre, hp1, hp2, hp3⟩ := output_loop_taken
    (plus_sign_thread (line_separator_thread (input_thread source)).put).put output_start
  have hinv := outInv_output_lines pre (fun l hl => (h3 l (hp1 l hl)).1)
  have hpr : pipeline source = records_ref pre.flatten := by
    show (output_loop _ output_start).1.printed = _
    rw [hp3]; exact hinv.printed
  intro r hr
  rw [hpr] at hr
  refine ⟨?_, records_ref_mem_length _ r hr⟩
  intro hn
  have := mem_records_ref _ r _ hr hn
  rw [List.mem_flatten] at this
  obtain ⟨l, hl, hcl⟩ := this
  exact (h3 l (hp1 l hl)).2 hcl

set_option maxRecDepth 100000 in
theorem no_newline_in_record_witness :
    (∀ l ∈ sample_source, IsCString l ∧ (l.length : Int) < MAX_LINE_LENGTH) ∧
    (pipeline sample_source).length = 1 ∧
    ∀ r ∈ pipeline sample_source, '\n' ∉ r ∧ r.length = OUTPUT_LINE_LENGTH :=
  ⟨by decide, by decide, no_newline_in_record sample_source (by decide)⟩

/-! ## Long lines -/

theorem fgets_chars_append (n : Nat) (s : List Char) :
    (fgets_chars n s).1 ++ (fgets_chars n s).2 = s := by
  induction n generalizing s with
  | zero => simp [fgets_chars]
  | succ m ih =>
    cases s with
    | nil => simp [fgets_chars]
    | cons c r =>
      rw [fgets_chars]
      by_cases hc : c = '\n'
      · simp [hc]
      · simp only [if_neg hc, List.cons_append, List.cons.injEq, true_and]
        exact ih r

theorem fgets_chars_length (n : Nat) (s : List Char) : (fgets_chars n s).1.length ≤ n := by
  induction n generalizing s with
  | zero => simp [fgets_chars]
  | succ m ih =>
    cases s with
    | nil => simp [fgets_chars]
    | cons c r =>
      rw [fgets_chars]
      by_cases hc : c = '\n'
      · simp [hc]
      · simp only [if_neg hc, List.length_cons]
        have := ih r
        omega

theorem fgets_chars_ne_nil (n : Nat) (c : Char) (r : List Char) :
    (fgets_chars (n + 1) (c :: r)).1 ≠ [] := by
  rw [fgets_chars]
  by_cases hc : c = '\n'
  · simp [hc]
  · simp [hc]

theorem fgets_cons (size : Nat) (c : Char) (r : List Char) :
    fgets size (c :: r) = some (fgets_chars (size - 1) (c :: r)) := rfl

theorem source_lines_spec (fuel : Nat) (stdin : List Char) (hf : stdin.length ≤ fuel) :
    (source_lines fuel stdin).flatten = stdin ∧
    ∀ l ∈ source_lines fuel stdin, l ≠ [] ∧ (l.length : Int) < MAX_LINE_LENGTH := by
  induction fuel generalizing stdin with
  | zero =>
    have : stdin = [] := List.length_eq_zero.mp (by omega)
    subst this
    simp [source_lines]
  | succ n ih =>
    cases stdin with
    | nil => simp [source_lines, fgets]
    | cons c r =>
      have h999 : MAX_LINE_LENGTH.toNat - 1 = 998 + 1 := by decide
      have happ := fgets_chars_append (MAX_LINE_LENGTH.toNat - 1) (c :: r)
      have hlen := fgets_chars_length (MAX_LINE_LENGTH.toNat - 1) (c :: r)
      have hne : (fgets_chars (MAX_LINE_LENGTH.toNat - 1) (c :: r)).1 ≠ [] := by
        rw [h999]; exact fgets_chars_ne_nil 998 c r
      have hpos : 0 < (fgets_chars (MAX_LINE_LENGTH.toNat - 1) (c :: r)).1.length :=
        List.length_pos.mpr hne
      have hrest : (fgets_chars (MAX_LINE_LENGTH.toNat - 1) (c :: r)).2.length ≤ n := by
        have := congrArg List.length happ
        simp only [List.length_append, List.length_cons] at this hf
        omega
      obtain ⟨ih1, ih2⟩ := ih _ hrest
      have e : source_lines (n + 1) (c :: r)
          = (fgets_chars (MAX_LINE_LENGTH.toNat - 1) (c :: r)).1
            :: source_lines n (fgets_chars (MAX_LINE_LENGTH.toNat - 1) (c :: r)).2 := by
        rw [source_lines, fgets_cons]
      rw [e]
      refine ⟨by rw [List.flatten_cons, ih1, happ], ?_⟩
      intro l hl
      rw [List.mem_cons] at hl
      rcases hl with rfl | hl
      · refine ⟨hne, ?_⟩
        have hlen2 : (fgets_chars (MAX_LINE_LENGTH.toNat - 1) (c :: r)).1.length ≤ 999 := hlen
        show ((fgets_chars (MAX_LINE_LENGTH.toNat - 1) (c :: r)).1.length : Int) < 1000
        omega
      · exact ih2 l hl

theorem source_lines_isCString (fuel : Nat) (stdin : List Char) (hf : stdin.length ≤ fuel)
    (hc : IsCString stdin) : ∀ l ∈ source_lines fuel stdin, IsCString l := by
  intro l hl hn
  apply hc
  rw [← (source_lines_spec fuel stdin hf).1, List.mem_flatten]
  exact ⟨l, hl, hn⟩

theorem fits_stop : Fits STOP := by decide

theorem late_tail (x : Line) (xs : List Line) (h : Late (x :: xs)) : Late xs := h.2

theorem late_input_thread (src : List Line) (h : BareLast src) : Late (input_thread src) := by
  induction src with
  | nil => exact ⟨fun _ => by simp, trivial⟩
  | cons l ls ih =>
    rw [input_thread]
    by_cases hl : l = STOP_LINE
    · rw [if_pos hl]; exact ⟨fun _ => by simp, trivial⟩
    · rw [if_neg hl]
      refine ⟨?_, ih h.2⟩
      intro hs
      rw [h.1 hs]
      simp [input_thread]

theorem stop_mem_input_thread (src : List Line) : STOP ∈ input_thread src := by
  rw [input_thread_eq]; simp

theorem input_thread_length_le (src : List Line) :
    (input_thread src).length ≤ src.length + 1 := by
  rw [input_thread_eq, List.length_append, List.length_singleton]
  have := (List.takeWhile_sublist (fun l => decide (l ≠ STOP_LINE)) (l := src)).length_le
  omega

theorem link1_start (source : List Line) (hfit : ∀ l ∈ source, Fits l)
    (hbare : BareLast source) : Link1 source false [] false := by
  refine ⟨hfit, by simp, fun _ => ?_, fun h => by simp at h⟩
  simp only [to_put, List.nil_append]
  exact ⟨late_input_thread source hbare, stop_mem_input_thread source⟩

theorem link_start (seen : Bool) (h : seen = false) : Link Worker.taking [] seen := by
  subst h
  refine ⟨by simp, by simp, by simp, by simp⟩

/-- What `input_thread` puts next leaves the items still to reach the consumer
as they are. -/
theorem to_put_data (ln : Line) (rest q : List Line) (h : ln ≠ STOP_LINE) :
    (q ++ [ln]) ++ to_put rest false = q ++ to_put (ln :: rest) false := by
  simp [to_put, input_thread, h]

theorem to_put_marker (src q : List Line) (h : src = [] ∨ ∃ rest, src = STOP_LINE :: rest) :
    (q ++ [STOP]) ++ to_put src true = q ++ to_put src false := by
  rcases h with rfl | ⟨rest, rfl⟩
  · simp [to_put, input_thread]
  · simp [to_put, input_thread]

theorem link1_put_data (ln : Line) (rest q : List Line) (seen : Bool)
    (h : Link1 (ln :: rest) false q seen) (hne : ln ≠ STOP_LINE) :
    Link1 rest false (q ++ [ln]) seen := by
  obtain ⟨h1, h2, h3, h4⟩ := h
  refine ⟨fun l hl => h1 l (by simp [hl]), ?_, ?_, ?_⟩
  · intro l hl
    rw [List.mem_append, List.mem_singleton] at hl
    rcases hl with hl | rfl
    · exact h2 l hl
    · exact h1 l (by simp)
  · rw [to_put_data ln rest q hne]; exact h3
  · rw [to_put_data ln rest q hne]; exact h4

theorem link1_put_marker (src q : List Line) (seen : Bool) (h : Link1 src false q seen)
    (hsrc : src = [] ∨ ∃ rest, src = STOP_LINE :: rest) :
    Link1 src true (q ++ [STOP]) seen := by
  obtain ⟨h1, h2, h3, h4⟩ := h
  refine ⟨h1, ?_, ?_, ?_⟩
  · intro l hl
    rw [List.mem_append, List.mem_singleton] at hl
    rcases hl with hl | rfl
    · exact h2 l hl
    · exact fits_stop
  · rw [to_put_marker src q hsrc]; exact h3
  · rw [to_put_marker src q hsrc]; exact h4

theorem link1_take_data (src : List Line) (d : Bool) (ln : Line) (rest : List Line)
    (h : Link1 src d (ln :: rest) false) (hne : ln ≠ STOP) : Link1 src d rest false := by
  obtain ⟨h1, h2, h3, h4⟩ := h
  refine ⟨h1, fun l hl => h2 l (by simp [hl]), fun _ => ?_, fun h => by simp at h⟩
  obtain ⟨hl, hm⟩ := h3 rfl
  rw [List.cons_append] at hl hm
  refine ⟨hl.2, ?_⟩
  rw [List.mem_cons] at hm
  rcases hm with hm | hm
  · exact absurd hm.symm hne
  · exact hm

theorem link1_take_marker (src : List Line) (d : Bool) (rest : List Line)
    (h : Link1 src d (STOP :: rest) false) : Link1 src d rest true := by
  obtain ⟨h1, h2, h3, h4⟩ := h
  refine ⟨h1, fun l hl => h2 l (by simp [hl]), fun h => by simp at h, fun _ => ?_⟩
  obtain ⟨hl, -⟩ := h3 rfl
  rw [List.cons_append] at hl
  exact hl.1 rfl

theorem link_take (q : List Line) (seen : Bool) (p : Worker) (h : Link Worker.taking q seen)
    (hp : p = Worker.forwarding ∨ ∃ x, p = Worker.putting x ∧ x ≠ STOP) : Link p q seen := by
  obtain ⟨h1, h2, h3, h4⟩ := h
  have hq : STOP ∉ q := fun hm => Worker.noConfusion (h1 hm)
  have hs : seen ≠ true := fun hs => Worker.noConfusion (h2 hs)
  refine ⟨fun hm => absurd hm hq, fun hs2 => absurd hs2 hs, ?_, ?_⟩
  · intro hd
    rcases hp with rfl | ⟨x, rfl, -⟩ <;> exact Worker.noConfusion hd
  · intro x hx
    rcases hp with rfl | ⟨y, rfl, hy⟩
    · exact Worker.noConfusion hx
    · rw [Worker.putting.injEq] at hx
      exact hx ▸ hy

theorem link_put (x : Line) (q : List Line) (seen : Bool)
    (h : Link (Worker.putting x) q seen) : Link Worker.taking (q ++ [x]) seen := by
  obtain ⟨h1, h2, h3, h4⟩ := h
  have hq : STOP ∉ q := fun hm => Worker.noConfusion (h1 hm)
  have hs : seen ≠ true := fun hs => Worker.noConfusion (h2 hs)
  refine ⟨?_, fun hs2 => absurd hs2 hs, fun hd => Worker.noConfusion hd,
    fun y hy => Worker.noConfusion hy⟩
  intro hm
  rw [List.mem_append, List.mem_singleton] at hm
  rcases hm with hm | hm
  · exact absurd hm hq
  · exact absurd hm.symm (h4 x rfl)

theorem link_forward (q : List Line) (seen : Bool) : Link Worker.done (q ++ [STOP]) seen :=
  ⟨fun _ => rfl, fun _ => rfl, fun _ _ => by simp, fun y hy => Worker.noConfusion hy⟩

theorem link_consume_data (p : Worker) (ln : Line) (rest : List Line)
    (h : Link p (ln :: rest) false) (hne : ln ≠ STOP) : Link p rest false := by
  obtain ⟨h1, h2, h3, h4⟩ := h
  refine ⟨fun hm => h1 (List.mem_cons_of_mem _ hm), fun h => by simp at h, ?_, h4⟩
  intro hd _
  have := h3 hd rfl
  rw [List.mem_cons] at this
  rcases this with hm | hm
  · exact absurd hm.symm hne
  · exact hm

theorem link_consume_marker (p : Worker) (rest : List Line) (seen : Bool)
    (h : Link p (STOP :: rest) seen) : Link p rest true ∧ p = Worker.done := by
  obtain ⟨h1, h2, h3, h4⟩ := h
  have hd : p = Worker.done := h1 (by simp)
  exact ⟨⟨fun _ => hd, fun _ => hd, fun _ h => by simp at h, h4⟩, hd⟩

theorem sysInv_start (source : List Line) (hfit : ∀ l ∈ source, Fits l)
    (hbare : BareLast source) : SysInv (start_sys source) :=
  ⟨link1_start source hfit hbare, link_start _ rfl, link_start _ rfl, by simp [start_sys],
    fun x hx => Worker.noConfusion hx⟩

theorem sysInv_input (s s1 : Sys) (h : SysInv s) (hs : step_input s = some s1) :
    SysInv s1 := by
  obtain ⟨h1, h2, h3, h4, h5⟩ := h
  unfold step_input at hs
  by_cases hd : s.t1_done = true
  · simp [hd] at hs
  · rw [if_neg hd] at hs
    have hd2 : s.t1_done = false := by simpa using hd
    rw [hd2] at h1
    by_cases hfull : (s.q1.length : Int) = MAX_LINES
    · simp [hfull] at hs
    · rw [if_neg hfull] at hs
      cases hsrc : s.src with
      | nil =>
        rw [hsrc] at hs h1
        simp only [Option.some.injEq] at hs
        subst hs
        exact ⟨link1_put_marker [] s.q1 _ h1 (Or.inl rfl), h2, h3, h4, h5⟩
      | cons ln rest =>
        rw [hsrc] at hs h1
        by_cases hl : ln = STOP_LINE
        · subst hl
          simp only [if_true, Option.some.injEq] at hs
          subst hs
          exact ⟨link1_put_marker _ s.q1 _ h1 (Or.inr ⟨rest, rfl⟩), h2, h3, h4, h5⟩
        · simp only [hl, if_false, Option.some.injEq] at hs
          subst hs
          refine ⟨?_, h2, h3, h4, h5⟩
          show Link1 rest s.t1_done (s.q1 ++ [ln]) s.t2.seen
          rw [hd2]
          exact link1_put_data ln rest s.q1 _ h1 hl

theorem sysInv_output (s s1 : Sys) (h : SysInv s) (hs : step_output s = some s1) :
    SysInv s1 := by
  obtain ⟨h1, h2, h3, h4, h5⟩ := h
  unfold step_output at hs
  by_cases hd : s.t4_done = true
  · simp [hd] at hs
  · rw [if_neg hd] at hs
    have hd2 : s.t4_done = false := by simpa using hd
    rw [hd2] at h3
    cases hq : s.q3 with
    | nil => rw [hq] at hs; simp at hs
    | cons ln rest =>
      rw [hq] at hs h3
      by_cases hl : ln = STOP
      · simp only [hl, if_true, Option.some.injEq] at hs
        subst hs
        rw [hl] at h3
        exact ⟨h1, h2, (link_consume_marker _ rest _ h3).1, h4, h5⟩
      · simp only [hl, if_false, Option.some.injEq] at hs
        subst hs
        refine ⟨h1, h2, ?_, h4, h5⟩
        show Link s.t3 rest s.t4_done
        rw [hd2]
        exact link_consume_data _ ln rest h3 hl

/-- A step of a middle stage keeps the link to its consumer, given its
transformation never yields the marker on the data it takes. -/
theorem link_step_worker (f : Line → Line) (w w1 : Worker) (up up1 down down1 : List Line)
    (seen : Bool) (h : Link w down seen)
    (hf : ∀ l ∈ up, l ≠ STOP → f l ≠ STOP)
    (hs : step_worker f w up down = some (w1, up1, down1)) : Link w1 down1 seen := by
  unfold step_worker at hs
  cases w with
  | taking =>
    cases up with
    | nil => simp at hs
    | cons ln rest =>
      by_cases hl : ln = STOP
      · simp only [hl, if_true, Option.some.injEq, Prod.mk.injEq] at hs
        obtain ⟨rfl, -, rfl⟩ := hs
        exact link_take _ _ _ h (Or.inl rfl)
      · simp only [hl, if_false, Option.some.injEq, Prod.mk.injEq] at hs
        obtain ⟨rfl, -, rfl⟩ := hs
        exact link_take _ _ _ h (Or.inr ⟨_, rfl, hf ln (by simp) hl⟩)
  | putting x =>
    by_cases hfull : (down.length : Int) = MAX_LINES
    · simp [hfull] at hs
    · simp only [hfull, if_false, Option.some.injEq, Prod.mk.injEq] at hs
      obtain ⟨rfl, -, rfl⟩ := hs
      exact link_put x down seen h
  | forwarding =>
    by_cases hfull : (down.length : Int) = MAX_LINES
    · simp [hfull] at hs
    · simp only [hfull, if_false, Option.some.injEq, Prod.mk.injEq] at hs
      obtain ⟨rfl, -, rfl⟩ := hs
      exact link_forward down seen
  | done => simp at hs

theorem fits_normalize (ln : Line) (h : Fits ln) : Fits (normalize ln) := by
  unfold Fits at *
  rw [normalize_eq_ref ln h.1, normalize_ref_length]
  exact ⟨normalize_ref_isCString ln h.1, h.2⟩

theorem link1_step_worker (f : Line → Line) (src : List Line) (d : Bool) (w w1 : Worker)
    (up up1 down down1 : List Line) (h : Link1 src d up w.seen)
    (hs : step_worker f w up down = some (w1, up1, down1)) : Link1 src d up1 w1.seen := by
  unfold step_worker at hs
  cases w with
  | taking =>
    cases up with
    | nil => simp at hs
    | cons ln rest =>
      by_cases hl : ln = STOP
      · subst hl
        simp only [if_true, Option.some.injEq, Prod.mk.injEq] at hs
        obtain ⟨rfl, rfl, -⟩ := hs
        exact link1_take_marker src d _ h
      · simp only [hl, if_false, Option.some.injEq, Prod.mk.injEq] at hs
        obtain ⟨rfl, rfl, -⟩ := hs
        exact link1_take_data src d ln _ h hl
  | putting x =>
    by_cases hfull : (down.length : Int) = MAX_LINES
    · simp [hfull] at hs
    · simp only [hfull, if_false, Option.some.injEq, Prod.mk.injEq] at hs
      obtain ⟨rfl, rfl, -⟩ := hs
      exact h
  | forwarding =>
    by_cases hfull : (down.length : Int) = MAX_LINES
    · simp [hfull] at hs
    · simp only [hfull, if_false, Option.some.injEq, Prod.mk.injEq] at hs
      obtain ⟨rfl, rfl, -⟩ := hs
      exact h
  | done => simp at hs

theorem link_up_step_worker (f : Line → Line) (p w w1 : Worker)
    (up up1 down down1 : List Line) (h : Link p up w.seen)
    (hs : step_worker f w up down = some (w1, up1, down1)) : Link p up1 w1.seen := by
  unfold step_worker at hs
  cases w with
  | taking =>
    cases up with
    | nil => simp at hs
    | cons ln rest =>
      by_cases hl : ln = STOP
      · subst hl
        simp only [if_true, Option.some.injEq, Prod.mk.injEq] at hs
        obtain ⟨rfl, rfl, -⟩ := hs
        exact (link_consume_marker p _ _ h).1
      · simp only [hl, if_false, Option.some.injEq, Prod.mk.injEq] at hs
        obtain ⟨rfl, rfl, -⟩ := hs
        exact link_consume_data p ln _ h hl
  | putting x =>
    by_cases hfull : (down.length : Int) = MAX_LINES
    · simp [hfull] at hs
    · simp only [hfull, if_false, Option.some.injEq, Prod.mk.injEq] at hs
      obtain ⟨rfl, rfl, -⟩ := hs
      exact h
  | forwarding =>
    by_cases hfull : (down.length : Int) = MAX_LINES
    · simp [hfull] at hs
    · simp only [hfull, if_false, Option.some.injEq, Prod.mk.injEq] at hs
      obtain ⟨rfl, rfl, -⟩ := hs
      exact h
  | done => simp at hs

theorem step_worker_up_subset (f : Line → Line) (w w1 : Worker)
    (up up1 down down1 : List Line)
    (hs : step_worker f w up down = some (w1, up1, down1)) : ∀ l ∈ up1, l ∈ up := by
  unfold step_worker at hs
  cases w with
  | taking =>
    cases up with
    | nil => simp at hs
    | cons ln rest =>
      by_cases hl : ln = STOP
      · simp only [hl, if_true, Option.some.injEq, Prod.mk.injEq] at hs
        obtain ⟨-, rfl, -⟩ := hs
        exact fun l hm => List.mem_cons_of_mem _ hm
      · simp only [hl, if_false, Option.some.injEq, Prod.mk.injEq] at hs
        obtain ⟨-, rfl, -⟩ := hs
        exact fun l hm => List.mem_cons_of_mem _ hm
  | putting x =>
    by_cases hfull : (down.length : Int) = MAX_LINES
    · simp [hfull] at hs
    · simp only [hfull, if_false, Option.some.injEq, Prod.mk.injEq] at hs
      obtain ⟨-, rfl, -⟩ := hs
      exact fun l hm => hm
  | forwarding =>
    by_cases hfull : (down.length : Int) = MAX_LINES
    · simp [hfull] at hs
    · simp only [hfull, if_false, Option.some.injEq, Prod.mk.injEq] at hs
      obtain ⟨-, rfl, -⟩ := hs
      exact fun l hm => hm
  | done => simp at hs

theorem fits_step_worker (f : Line → Line) (w w1 : Worker) (up up1 down down1 : List Line)
    (hup : ∀ l ∈ up, Fits l) (hdown : ∀ l ∈ down, Fits l)
    (hheld : ∀ x, w = Worker.putting x → Fits x) (hf : ∀ l, Fits l → Fits (f l))
    (hs : step_worker f w up down = some (w1, up1, down1)) :
    (∀ l ∈ down1, Fits l) ∧ (∀ x, w1 = Worker.putting x → Fits x) := by
  unfold step_worker at hs
  cases w with
  | taking =>
    cases up with
    | nil => simp at hs
    | cons ln rest =>
      by_cases hl : ln = STOP
      · simp only [hl, if_true, Option.some.injEq, Prod.mk.injEq] at hs
        obtain ⟨rfl, -, rfl⟩ := hs
        exact ⟨hdown, fun x hx => Worker.noConfusion hx⟩
      · simp only [hl, if_false, Option.some.injEq, Prod.mk.injEq] at hs
        obtain ⟨rfl, -, rfl⟩ := hs
        refine ⟨hdown, fun x hx => ?_⟩
        rw [Worker.putting.injEq] at hx
        exact hx ▸ hf ln (hup ln (by simp))
  | putting x =>
    by_cases hfull : (down.length : Int) = MAX_LINES
    · simp [hfull] at hs
    · simp only [hfull, if_false, Option.some.injEq, Prod.mk.injEq] at hs
      obtain ⟨rfl, -, rfl⟩ := hs
      refine ⟨fun l hl => ?_, fun y hy => Worker.noConfusion hy⟩
      rw [List.mem_append, List.mem_singleton] at hl
      rcases hl with hl | rfl
      · exact hdown l hl
      · exact hheld l rfl
  | forwarding =>
    by_cases hfull : (down.length : Int) = MAX_LINES
    · simp [hfull] at hs
    · simp only [hfull, if_false, Option.some.injEq, Prod.mk.injEq] at hs
      obtain ⟨rfl, -, rfl⟩ := hs
      refine ⟨fun l hl => ?_, fun y hy => Worker.noConfusion hy⟩
      rw [List.mem_append, List.mem_singleton] at hl
      rcases hl with hl | rfl
      · exact hdown l hl
      · exact fits_stop
  | done => simp at hs

theorem sysInv_step (s s1 : Sys) (t : Thread) (h : SysInv s) (hs : step_sys s t = some s1) :
    SysInv s1 := by
  cases t with
  | input => exact sysInv_input s s1 h hs
  | output => exact sysInv_output s s1 h hs
  | separator =>
    obtain ⟨h1, h2, h3, h4, h5⟩ := h
    simp only [step_sys, Option.map_eq_some'] at hs
    obtain ⟨⟨w1, up1, down1⟩, hw, rfl⟩ := hs
    have hfit := fits_step_worker normalize _ _ _ _ _ _ h1.2.1 h4 h5 fits_normalize hw
    exact ⟨link1_step_worker normalize _ _ _ _ _ _ _ _ h1 hw,
      link_step_worker normalize _ _ _ _ _ _ _ h2
        (fun l hl hne => normalize_ne_stop l (h1.2.1 l hl).1 hne) hw,
      h3, hfit.1, hfit.2⟩
  | plus =>
    obtain ⟨h1, h2, h3, h4, h5⟩ := h
    simp only [step_sys, Option.map_eq_some'] at hs
    obtain ⟨⟨w1, up1, down1⟩, hw, rfl⟩ := hs
    exact ⟨h1, link_up_step_worker collapse _ _ _ _ _ _ _ h2 hw,
      link_step_worker collapse _ _ _ _ _ _ _ h3
        (fun l hl hne => collapse_ne_stop l (h4 l hl).1 (h4 l hl).2 hne) hw,
      fun l hl => h4 l (step_worker_up_subset collapse _ _ _ _ _ _ hw l hl), h5⟩

theorem sysInv_run (sched : List Thread) (s s1 : Sys) (h : SysInv s)
    (hs : run_sys s sched = some s1) : SysInv s1 := by
  induction sched generalizing s with
  | nil =>
    simp only [run_sys, Option.some.injEq] at hs
    exact hs ▸ h
  | cons t ts ih =>
    rw [run_sys] at hs
    cases hstep : step_sys s t with
    | none => simp [hstep] at hs
    | some s2 =>
      simp only [hstep] at hs
      exact ih s2 (sysInv_step s s2 t h hstep) hs

theorem input_enabled (s : Sys) (hd : s.t1_done = false)
    (hq : (s.q1.length : Int) ≠ MAX_LINES) : (step_sys s Thread.input).isSome = true := by
  simp only [step_sys, step_input, hd, Bool.false_eq_true, if_false, if_neg hq]
  cases s.src with
  | nil => rfl
  | cons ln rest =>
    by_cases hl : ln = STOP_LINE
    · simp [hl]
    · simp [hl]

theorem worker_take_enabled (f : Line → Line) (ln : Line) (rest down : List Line) :
    (step_worker f Worker.taking (ln :: rest) down).isSome = true := by
  unfold step_worker
  by_cases hl : ln = STOP
  · simp [hl]
  · simp [hl]

theorem worker_put_enabled (f : Line → Line) (w : Worker) (up down : List Line)
    (hw : w = Worker.forwarding ∨ ∃ x, w = Worker.putting x)
    (hq : (down.length : Int) ≠ MAX_LINES) : (step_worker f w up down).isSome = true := by
  rcases hw with rfl | ⟨x, rfl⟩
  · simp [step_worker, hq]
  · simp [step_worker, hq]

theorem output_enabled (s : Sys) (hd : s.t4_done = false) (ln : Line) (rest : List Line)
    (hq : s.q3 = ln :: rest) : (step_sys s Thread.output).isSome = true := by
  simp only [step_sys, step_output, hd, Bool.false_eq_true, if_false, hq]
  by_cases hl : ln = STOP
  · simp [hl]
  · simp [hl]

theorem not_full_nil : ((([] : List Line).length : Nat) : Int) ≠ MAX_LINES := by decide

theorem no_deadlock_of_inv (s : Sys) (h : SysInv s) :
    all_exited s ∨ ∃ t, (step_sys s t).isSome = true := by
  obtain ⟨h1, h2, h3, -, -⟩ := h
  by_cases hd4 : s.t4_done = true
  · have ht3 : s.t3 = Worker.done := h3.2.1 hd4
    have ht2 : s.t2 = Worker.done := h2.2.1 (by rw [ht3]; rfl)
    by_cases hd1 : s.t1_done = true
    · exact Or.inl ⟨hd1, ht2, ht3, hd4⟩
    · right
      have hd1f : s.t1_done = false := by simpa using hd1
      have hlen := h1.2.2.2 (by rw [ht2]; rfl)
      rw [List.length_append] at hlen
      refine ⟨Thread.input, input_enabled s hd1f ?_⟩
      intro hfull
      simp only [MAX_LINES] at hfull
      omega
  · right
    have hd4f : s.t4_done = false := by simpa using hd4
    cases hq3 : s.q3 with
    | cons ln rest => exact ⟨Thread.output, output_enabled s hd4f ln rest hq3⟩
    | nil =>
      have hplus : ∀ r, step_worker collapse s.t3 s.q2 s.q3 = r → r.isSome = true →
          (step_sys s Thread.plus).isSome = true := by
        intro r hr hsome
        simp only [step_sys, Option.isSome_map', hr, hsome]
      have hsep : ∀ r, step_worker normalize s.t2 s.q1 s.q2 = r → r.isSome = true →
          (step_sys s Thread.separator).isSome = true := by
        intro r hr hsome
        simp only [step_sys, Option.isSome_map', hr, hsome]
      cases ht3 : s.t3 with
      | done =>
        have := h3.2.2.1 ht3 hd4f
        rw [hq3] at this
        simp at this
      | putting y =>
        refine ⟨Thread.plus, hplus _ rfl ?_⟩
        rw [ht3, hq3]
        exact worker_put_enabled _ _ _ _ (Or.inr ⟨y, rfl⟩) not_full_nil
      | forwarding =>
        refine ⟨Thread.plus, hplus _ rfl ?_⟩
        rw [ht3, hq3]
        exact worker_put_enabled _ _ _ _ (Or.inl rfl) not_full_nil
      | taking =>
        cases hq2 : s.q2 with
        | cons ln rest =>
          refine ⟨Thread.plus, hplus _ rfl ?_⟩
          rw [ht3, hq2]
          exact worker_take_enabled _ _ _ _
        | nil =>
          cases ht2 : s.t2 with
          | done =>
            have := h2.2.2.1 ht2 (by rw [ht3]; rfl)
            rw [hq2] at this
            simp at this
          | putting x =>
            refine ⟨Thread.separator, hsep _ rfl ?_⟩
            rw [ht2, hq2]
            exact worker_put_enabled _ _ _ _ (Or.inr ⟨x, rfl⟩) not_full_nil
          | forwarding =>
            refine ⟨Thread.separator, hsep _ rfl ?_⟩
            rw [ht2, hq2]
            exact worker_put_enabled _ _ _ _ (Or.inl rfl) not_full_nil
          | taking =>
            cases hq1 : s.q1 with
            | cons ln rest =>
              refine ⟨Thread.separator, hsep _ rfl ?_⟩
              rw [ht2, hq1]
              exact worker_take_enabled _ _ _ _
            | nil =>
              by_cases hd1 : s.t1_done = true
              · have := (h1.2.2.1 (by rw [ht2]; rfl)).2
                rw [hq1, hd1] at this
                simp [to_put] at this
              · have hd1f : s.t1_done = false := by simpa using hd1
                exact ⟨Thread.input, input_enabled s hd1f (by rw [hq1]; exact not_full_nil)⟩

theorem step_worker_weight (f : Line → Line) (c : Nat) (w w1 : Worker)
    (up up1 down down1 : List Line)
    (hs : step_worker f w up down = some (w1, up1, down1)) :
    (c + 1) * up1.length + w1.weight c + (c - 1) * down1.length + 1
      = (c + 1) * up.length + w.weight c + (c - 1) * down.length ∨ c = 0 := by
  rcases Nat.eq_zero_or_pos c with hc | hc
  · exact Or.inr hc
  left
  obtain ⟨k, rfl⟩ : ∃ k, c = k + 1 := ⟨c - 1, by omega⟩
  simp only [Nat.add_sub_cancel]
  unfold step_worker at hs
  cases w with
  | taking =>
    cases up with
    | nil => simp at hs
    | cons ln rest =>
      by_cases hl : ln = STOP
      · simp only [hl, if_true, Option.some.injEq, Prod.mk.injEq] at hs
        obtain ⟨rfl, rfl, rfl⟩ := hs
        simp only [Worker.weight, List.length_cons, Nat.mul_succ]
        omega
      · simp only [hl, if_false, Option.some.injEq, Prod.mk.injEq] at hs
        obtain ⟨rfl, rfl, rfl⟩ := hs
        simp only [Worker.weight, List.length_cons, Nat.mul_succ]
        omega
  | putting x =>
    by_cases hfull : (down.length : Int) = MAX_LINES
    · simp [hfull] at hs
    · simp only [hfull, if_false, Option.some.injEq, Prod.mk.injEq] at hs
      obtain ⟨rfl, rfl, rfl⟩ := hs
      simp only [Worker.weight, List.length_append, List.length_singleton, Nat.mul_succ,
        Nat.mul_add, Nat.mul_one]
      omega
  | forwarding =>
    by_cases hfull : (down.length : Int) = MAX_LINES
    · simp [hfull] at hs
    · simp only [hfull, if_false, Option.some.injEq, Prod.mk.injEq] at hs
      obtain ⟨rfl, rfl, rfl⟩ := hs
      simp only [Worker.weight, List.length_append, List.length_singleton, Nat.mul_succ,
        Nat.mul_add, Nat.mul_one]
      omega
  | done => simp at hs

theorem steps_left_step (s s1 : Sys) (t : Thread) (hs : step_sys s t = some s1) :
    steps_left s1 + 1 = steps_left s := by
  cases t with
  | input =>
    simp only [step_sys, step_input] at hs
    by_cases hd : s.t1_done = true
    · simp [hd] at hs
    · rw [if_neg hd] at hs
      have hd2 : s.t1_done = false := by simpa using hd
      by_cases hfull : (s.q1.length : Int) = MAX_LINES
      · simp [hfull] at hs
      · rw [if_neg hfull] at hs
        cases hsrc : s.src with
        | nil =>
          rw [hsrc] at hs
          simp only [Option.some.injEq] at hs
          subst hs
          simp only [steps_left, hsrc, hd2, to_put, input_thread, List.length_append,
            List.length_singleton, List.length_nil, if_true, Bool.false_eq_true, if_false]
          omega
        | cons ln rest =>
          rw [hsrc] at hs
          by_cases hl : ln = STOP_LINE
          · simp only [hl, if_true, Option.some.injEq] at hs
            subst hs
            simp only [steps_left, hsrc, hd2, hl, to_put, input_thread, List.length_append,
              List.length_singleton, List.length_nil, if_true, Bool.false_eq_true, if_false]
            omega
          · simp only [hl, if_false, Option.some.injEq] at hs
            subst hs
            simp only [steps_left, hsrc, hd2, hl, to_put, input_thread, List.length_append,
              List.length_singleton, List.length_cons, List.length_nil, Bool.false_eq_true,
              if_false]
            omega
  | separator =>
    simp only [step_sys, Option.map_eq_some'] at hs
    obtain ⟨⟨w1, up1, down1⟩, hw, rfl⟩ := hs
    rcases step_worker_weight normalize 4 _ _ _ _ _ _ hw with h | h
    · simp only [steps_left]
      omega
    · exact absurd h (by decide)
  | plus =>
    simp only [step_sys, Option.map_eq_some'] at hs
    obtain ⟨⟨w1, up1, down1⟩, hw, rfl⟩ := hs
    rcases step_worker_weight collapse 2 _ _ _ _ _ _ hw with h | h
    · simp only [steps_left]
      omega
    · exact absurd h (by decide)
  | output =>
    simp only [step_sys, step_output] at hs
    by_cases hd : s.t4_done = true
    · simp [hd] at hs
    · rw [if_neg hd] at hs
      cases hq : s.q3 with
      | nil => rw [hq] at hs; simp at hs
      | cons ln rest =>
        rw [hq] at hs
        by_cases hl : ln = STOP
        · simp only [hl, if_true, Option.some.injEq] at hs
          subst hs
          simp only [steps_left, hq, List.length_cons]
          omega
        · simp only [hl, if_false, Option.some.injEq] at hs
          subst hs
          simp only [steps_left, hq, List.length_cons]
          omega

theorem steps_left_run (sched : List Thread) (s s1 : Sys) (hs : run_sys s sched = some s1) :
    sched.length + steps_left s1 = steps_left s := by
  induction sched generalizing s with
  | nil =>
    simp only [run_sys, Option.some.injEq] at hs
    subst hs; simp
  | cons t ts ih =>
    rw [run_sys] at hs
    cases hstep : step_sys s t with
    | none => simp [hstep] at hs
    | some s2 =>
      simp only [hstep] at hs
      have h1 := ih s2 hs
      have h2 := steps_left_step s s2 t hstep
      simp only [List.length_cons]
      omega

theorem steps_left_start (source : List Line) :
    steps_left (start_sys source) ≤ 6 * (source.length + 1) := by
  have := input_thread_length_le source
  simp only [steps_left, start_sys, to_put, Worker.weight, List.length_nil, Bool.false_eq_true,
    if_false]
  omega

theorem run_sys_append (sched more : List Thread) (s s1 s2 : Sys)
    (h1 : run_sys s sched = some s1) (h2 : run_sys s1 more = some s2) :
    run_sys s (sched ++ more) = some s2 := by
  induction sched generalizing s with
  | nil =>
    simp only [run_sys, Option.some.injEq] at h1
    subst h1; exact h2
  | cons t ts ih =>
    rw [run_sys] at h1
    cases hstep : step_sys s t with
    | none => simp [hstep] at h1
    | some s3 =>
      simp only [hstep] at h1
      rw [List.cons_append, run_sys, hstep]
      exact ih s3 h1

theorem completes_of_inv (n : Nat) (s : Sys) (h : SysInv s) (hn : steps_left s ≤ n) :
    ∃ more s1, run_sys s more = some s1 ∧ all_exited s1 := by
  induction n generalizing s with
  | zero =>
    rcases no_deadlock_of_inv s h with hex | ⟨t, ht⟩
    · exact ⟨[], s, rfl, hex⟩
    · obtain ⟨s2, hs2⟩ := Option.isSome_iff_exists.mp ht
      have := steps_left_step s s2 t hs2
      omega
  | succ m ih =>
    rcases no_deadlock_of_inv s h with hex | ⟨t, ht⟩
    · exact ⟨[], s, rfl, hex⟩
    · obtain ⟨s2, hs2⟩ := Option.isSome_iff_exists.mp ht
      have hlt := steps_left_step s s2 t hs2
      obtain ⟨more, s3, hr, hex⟩ := ih s2 (sysInv_step s s2 t h hs2) (by omega)
      refine ⟨t :: more, s3, ?_, hex⟩
      rw [run_sys, hs2]
      exact hr

/-! ## The threads compute what the stages in sequence compute -/

theorem worker_rest_step (f : Line → Line) (stage : List Line → Stage)
    (hstage : ∀ l rest, (stage (l :: rest)).put
      = if l = STOP then [STOP] else f l :: (stage rest).put)
    (w w1 : Worker) (up up1 down down1 tail : List Line)
    (hs : step_worker f w up down = some (w1, up1, down1)) :
    down1 ++ worker_rest stage w1 (up1 ++ tail) = down ++ worker_rest stage w (up ++ tail) := by
  unfold step_worker at hs
  cases w with
  | taking =>
    cases up with
    | nil => simp at hs
    | cons ln rest =>
      by_cases hl : ln = STOP
      · simp only [hl, if_true, Option.some.injEq, Prod.mk.injEq] at hs
        obtain ⟨rfl, rfl, rfl⟩ := hs
        simp only [worker_rest, List.cons_append, hstage, hl, if_true]
      · simp only [hl, if_false, Option.some.injEq, Prod.mk.injEq] at hs
        obtain ⟨rfl, rfl, rfl⟩ := hs
        simp only [worker_rest, List.cons_append, hstage, hl, if_false]
  | putting x =>
    by_cases hfull : (down.length : Int) = MAX_LINES
    · simp [hfull] at hs
    · simp only [hfull, if_false, Option.some.injEq, Prod.mk.injEq] at hs
      obtain ⟨rfl, rfl, rfl⟩ := hs
      simp only [worker_rest, List.append_assoc, List.singleton_append]
  | forwarding =>
    by_cases hfull : (down.length : Int) = MAX_LINES
    · simp [hfull] at hs
    · simp only [hfull, if_false, Option.some.injEq, Prod.mk.injEq] at hs
      obtain ⟨rfl, rfl, rfl⟩ := hs
      simp only [worker_rest, List.append_nil]
  | done => simp at hs

theorem line_separator_put_cons (l : Line) (rest : List Line) :
    (line_separator_thread (l :: rest)).put
      = if l = STOP then [STOP] else normalize l :: (line_separator_thread rest).put := by
  rw [line_separator_thread]
  by_cases h : l = STOP
  · simp [h]
  · simp [h]

theorem plus_sign_put_cons (l : Line) (rest : List Line) :
    (plus_sign_thread (l :: rest)).put
      = if l = STOP then [STOP] else collapse l :: (plus_sign_thread rest).put := by
  rw [plus_sign_thread]
  by_cases h : l = STOP
  · simp [h]
  · simp [h]

theorem pending1_input (s s1 : Sys) (hs : step_input s = some s1) :
    pending1 s1 = pending1 s ∧ s1.t2 = s.t2 ∧ s1.q2 = s.q2 ∧ s1.t3 = s.t3 ∧ s1.q3 = s.q3 ∧
      s1.t4_done = s.t4_done ∧ s1.out = s.out := by
  unfold step_input at hs
  by_cases hd : s.t1_done = true
  · simp [hd] at hs
  · rw [if_neg hd] at hs
    have hd2 : s.t1_done = false := by simpa using hd
    by_cases hfull : (s.q1.length : Int) = MAX_LINES
    · simp [hfull] at hs
    · rw [if_neg hfull] at hs
      cases hsrc : s.src with
      | nil =>
        rw [hsrc] at hs
        simp only [Option.some.injEq] at hs
        subst hs
        refine ⟨?_, rfl, rfl, rfl, rfl, rfl, rfl⟩
        simp only [pending1, hsrc, hd2]
        exact to_put_marker [] s.q1 (Or.inl rfl)
      | cons ln rest =>
        rw [hsrc] at hs
        by_cases hl : ln = STOP_LINE
        · subst hl
          simp only [if_true, Option.some.injEq] at hs
          subst hs
          refine ⟨?_, rfl, rfl, rfl, rfl, rfl, rfl⟩
          simp only [pending1, hsrc, hd2]
          exact to_put_marker _ s.q1 (Or.inr ⟨rest, rfl⟩)
        · simp only [hl, if_false, Option.some.injEq] at hs
          subst hs
          refine ⟨?_, rfl, rfl, rfl, rfl, rfl, rfl⟩
          simp only [pending1, hsrc, hd2]
          exact to_put_data ln rest s.q1 hl

theorem final_output_step (s s1 : Sys) (t : Thread) (hs : step_sys s t = some s1) :
    final_output s1 = final_output s := by
  cases t with
  | input =>
    obtain ⟨h1, h2, h3, h4, h5, h6, h7⟩ := pending1_input s s1 hs
    simp only [final_output, pending3, pending2, h1, h2, h3, h4, h5, h6, h7]
  | separator =>
    simp only [step_sys, Option.map_eq_some'] at hs
    obtain ⟨⟨w1, up1, down1⟩, hw, rfl⟩ := hs
    have := worker_rest_step normalize line_separator_thread line_separator_put_cons
      _ _ _ _ _ _ (to_put s.src s.t1_done) hw
    simp only [final_output, pending3, pending2, pending1, this]
  | plus =>
    simp only [step_sys, Option.map_eq_some'] at hs
    obtain ⟨⟨w1, up1, down1⟩, hw, rfl⟩ := hs
    have := worker_rest_step collapse plus_sign_thread plus_sign_put_cons
      _ _ _ _ _ _ (worker_rest line_separator_thread s.t2 (pending1 s)) hw
    have e : pending1 { s with t3 := w1, q2 := up1, q3 := down1 } = pending1 s := rfl
    simp only [final_output, pending3, pending2, e, this]
  | output =>
    simp only [step_sys, step_output] at hs
    by_cases hd : s.t4_done = true
    · simp [hd] at hs
    · rw [if_neg hd] at hs
      have hd2 : s.t4_done = false := by simpa using hd
      cases hq : s.q3 with
      | nil => rw [hq] at hs; simp at hs
      | cons ln rest =>
        rw [hq] at hs
        by_cases hl : ln = STOP
        · simp only [hl, if_true, Option.some.injEq] at hs
          subst hs
          simp only [final_output, pending3, hq, hl, hd2, List.cons_append, output_loop,
            if_true, Bool.false_eq_true, if_false]
        · simp only [hl, if_false, Option.some.injEq] at hs
          subst hs
          simp only [final_output, pending3, pending2, pending1, hq, hl, hd2, List.cons_append,
            output_loop, Bool.false_eq_true, if_false]

theorem final_output_run (sched : List Thread) (s s1 : Sys) (hs : run_sys s sched = some s1) :
    final_output s1 = final_output s := by
  induction sched generalizing s with
  | nil =>
    simp only [run_sys, Option.some.injEq] at hs
    subst hs; rfl
  | cons t ts ih =>
    rw [run_sys] at hs
    cases hstep : step_sys s t with
    | none => simp [hstep] at hs
    | some s2 =>
      simp only [hstep] at hs
      rw [ih s2 hs, final_output_step s s2 t hstep]

theorem final_output_start (source : List Line) :
    (final_output (start_sys source)).printed = pipeline source := rfl

theorem printed_of_exited (source : List Line) (sched : List Thread) (s : Sys)
    (hrun : run_sys (start_sys source) sched = some s) (hex : all_exited s) :
    s.out.printed = pipeline source := by
  rw [← final_output_start source, ← final_output_run sched _ s hrun]
  simp only [final_output, hex.2.2.2, if_true]

theorem fgets_chars_end (n : Nat) (s : List Char) :
    (fgets_chars n s).2 = [] ∨ (fgets_chars n s).1.length = n ∨
      (fgets_chars n s).1.getLast? = some '\n' := by
  induction n generalizing s with
  | zero => right; left; simp [fgets_chars]
  | succ m ih =>
    cases s with
    | nil => left; simp [fgets_chars]
    | cons c r =>
      rw [fgets_chars]
      by_cases hc : c = '\n'
      · right; right; simp [hc]
      · simp only [if_neg hc]
        rcases ih r with h | h | h
        · exact Or.inl h
        · right; left; simp only [List.length_cons, h]
        · right; right
          have hne : (fgets_chars m r).1 ≠ [] := by
            intro e; rw [e] at h; simp at h
          rw [getLast?_cons_of_ne _ _ hne]
          exact h

theorem source_lines_nil (fuel : Nat) : source_lines fuel [] = [] := by
  cases fuel with
  | zero => rfl
  | succ n => rfl

theorem bareLast_source_lines (fuel : Nat) (stdin : List Char) :
    BareLast (source_lines fuel stdin) := by
  induction fuel generalizing stdin with
  | zero => exact trivial
  | succ n ih =>
    cases stdin with
    | nil => exact trivial
    | cons c r =>
      have e : source_lines (n + 1) (c :: r)
          = (fgets_chars (MAX_LINE_LENGTH.toNat - 1) (c :: r)).1
            :: source_lines n (fgets_chars (MAX_LINE_LENGTH.toNat - 1) (c :: r)).2 := by
        rw [source_lines, fgets_cons]
      rw [e]
      refine ⟨?_, ih _⟩
      intro hstop
      rcases fgets_chars_end (MAX_LINE_LENGTH.toNat - 1) (c :: r) with h | h | h
      · rw [h]; exact source_lines_nil n
      · rw [hstop] at h
        exact absurd h (by decide)
      · rw [hstop] at h
        exact absurd h (by decide)

/-- Deadlock freedom on text: for every input without NUL byte and every
interleaving of the four threads over the three buffers, the state reached is
never one in which some thread has not returned and no thread can step; the
number of steps taken is at most six per item, so every run ends; and from the
state reached the run can be continued until all four threads have returned.
Hence every run that can go no further has all four threads returned, and the
records printed by then are those of the four stages run in sequence. -/
theorem deadlock_free_shutdown (stdin : List Char) (hc : IsCString stdin)
    (sched : List Thread) (s : Sys)
    (hrun : run_sys (start_sys (source_lines stdin.length stdin)) sched = some s) :
    (all_exited s ∨ ∃ t, (step_sys s t).isSome = true) ∧
    ((∀ t, step_sys s t = none) → all_exited s) ∧
    sched.length ≤ 6 * ((source_lines stdin.length stdin).length + 1) ∧
    (∃ more s1, run_sys s more = some s1 ∧ all_exited s1) ∧
    (all_exited s → s.out.printed = pipeline (source_lines stdin.length stdin)) := by
  have hfit : ∀ l ∈ source_lines stdin.length stdin, Fits l := fun l hl =>
    ⟨source_lines_isCString _ _ (Nat.le_refl _) hc l hl,
      ((source_lines_spec _ _ (Nat.le_refl _)).2 l hl).2⟩
  have hinv0 := sysInv_start _ hfit (bareLast_source_lines stdin.length stdin)
  have hinv := sysInv_run sched _ s hinv0 hrun
  have hdead := no_deadlock_of_inv s hinv
  have hlen := steps_left_run sched _ s hrun
  have hstart := steps_left_start (source_lines stdin.length stdin)
  refine ⟨hdead, ?_, by omega, completes_of_inv (steps_left s) s hinv (Nat.le_refl _),
    printed_of_exited _ sched s hrun⟩
  intro hnone
  rcases hdead with h | ⟨t, ht⟩
  · exact h
  · rw [hnone t] at ht
    simp at ht

theorem deadlock_free_shutdown_witness :
    IsCString short_stdin ∧
    ∃ s, run_sys (start_sys (source_lines short_stdin.length short_stdin)) sample_schedule
        = some s ∧
      all_exited s ∧ s.out.printed = [] ∧
      sample_schedule.length
        ≤ 6 * ((source_lines short_stdin.length short_stdin).length + 1) :=
  ⟨by decide, _, rfl, ⟨rfl, rfl, rfl, rfl⟩, rfl,
    (deadlock_free_shutdown short_stdin (by decide) sample_schedule _ rfl).2.2.1⟩


set_option maxRecDepth 100000 in
/-- C14, evaluated where it fails.  On an input whose first line is `STOP`, a
NUL byte and a newline, followed by 51 lines, `fgets` leaves the C string
`"STOP"` in `line`; it is not `"STOP\n"`, so `input_thread` puts it as a data
item.  The three other threads take it for the marker and return, while
`input_thread` goes on: after 50 more lines `buffer1` is full, one line is
still to be put, and no thread can step although `input_thread` has not
returned. -/
theorem shutdown_deadlock_on_nul :
    delivered_lines nul_stdin = STOP :: List.replicate 51 ['y', '\n'] ∧
    ∃ s, run_sys (start_sys (delivered_lines nul_stdin)) stuck_schedule = some s ∧
      s.t1_done = false ∧ s.t2 = Worker.done ∧ s.t3 = Worker.done ∧ s.t4_done = true ∧
      (s.q1.length : Int) = MAX_LINES ∧ s.src = [['y', '\n']] ∧
      step_sys s Thread.input = none ∧ step_sys s Thread.separator = none ∧
      step_sys s Thread.plus = none ∧ step_sys s Thread.output = none ∧
      ¬ all_exited s :=
  ⟨by decide, _, rfl, rfl, rfl, rfl, rfl, rfl, rfl, rfl, rfl, rfl, rfl,
    fun h => Bool.noConfusion h.1⟩

end LineProcessor
